import Mathlib

/-!
Verification of the jsonprops JSON tokenizer and navigation layer.

The definitions below are a shallow embedding of `src/json/parser.rs`,
`src/json/node.rs` and `src/json/schema/parser.rs`:

* `JsonValue`, `JsonTokenData`, `JsonToken`, `ParseError` mirror the Rust
  data types (byte offsets and byte lengths become `Nat`).
* The `PeekIt` character iterator becomes a `List (Nat × Char)` of
  byte-offset/character pairs (`charIndices`); `peek` is the head and
  `next` is `tail`.
* The mutually recursive recursive-descent scanner
  (`JsonParser::parse`, `get_array_token`, `get_object_token`,
  `colon_value` and the two inner loops) is embedded as a fuel-indexed
  family: `parseStep` etc. are the non-recursive bodies, taking the
  functions for the next-smaller fuel as the bundle `StepFns`, and
  `PAll fuel` ties the knot by primitive recursion on the fuel.  Fuel
  exhaustion surfaces as `ParseError.eof`; `process` supplies fuel that
  is far more than any input of its length can consume, and every
  theorem about a *successful* run holds for every fuel value.
* The `Vec<JsonToken>` that the Rust code mutates in place (push and
  back-patch by index) becomes explicit `List JsonToken` state threaded
  through the functions, with `List.set` for the back-patches.
* Navigation (`JsonNode::get` / `key`, `JsonParser::next_sibling_index`,
  `get_slice`, `get_int`, `get_bool`, `get_string`) and the schema
  extractor's `array_len` / `set_allof` are embedded as plain functions
  over the source text and the token list.  Places where the Rust code
  would panic (indexing out of bounds, `panic!()` arms) are totalised
  with harmless default values; no verified statement depends on them.
-/

namespace Jsonprops

/-- Mirrors Rust `enum JsonValue`. -/
inductive JsonValue where
  | null
  | true
  | false
  | number (len : Nat)
  | string (len : Nat)
  | arrayOpen (closeIndex : Nat)
  | objectOpen (closeIndex : Nat)
deriving DecidableEq

/-- Mirrors Rust `enum JsonTokenData`. -/
inductive JsonTokenData where
  | value (v : JsonValue)
  | comma
  | colon
  | arrayClose (count : Nat)
  | objectClose (count : Nat)
deriving DecidableEq

/-- Mirrors Rust `struct JsonToken`. -/
structure JsonToken where
  start : Nat
  data : JsonTokenData
deriving DecidableEq

/-- Mirrors Rust `enum ParseError`. -/
inductive ParseError where
  | eof
  | unknown (i : Nat) (c : Char)
  | value (i : Nat) (v : JsonValue)
deriving DecidableEq

/-- Decidable equality for `Except` results, so that concrete runs of the
embedded functions can be checked by `decide`. -/
instance {ε α : Type} [DecidableEq ε] [DecidableEq α] : DecidableEq (Except ε α) := fun a b =>
  match a, b with
  | .error e₁, .error e₂ =>
    if h : e₁ = e₂ then .isTrue (h ▸ rfl)
    else .isFalse (fun hh => h (by injection hh))
  | .error _, .ok _ => .isFalse (fun hh => Except.noConfusion hh)
  | .ok _, .error _ => .isFalse (fun hh => Except.noConfusion hh)
  | .ok x, .ok y =>
    if h : x = y then .isTrue (h ▸ rfl)
    else .isFalse (fun hh => h (by injection hh))

/-- The `PeekIt` character iterator: remaining (byte offset, char) pairs. -/
abbrev It := List (Nat × Char)

/-- Byte-offset/character pairs starting from offset `i`
(the model of `str::char_indices`). -/
def charIndicesFrom : Nat → List Char → It
  | _, [] => []
  | i, c :: cs => (i, c) :: charIndicesFrom (i + c.utf8Size) cs

/-- The model of `self.src.char_indices()`. -/
def charIndices (src : List Char) : It :=
  charIndicesFrom 0 src

/-- Default token used to totalise `tokens[i]` lookups
(the Rust code would panic on out-of-range indices). -/
def defaultToken : JsonToken := ⟨0, .comma⟩

/-- `self.tokens[i]`, totalised. -/
def tokAt (ts : List JsonToken) (i : Nat) : JsonToken :=
  ts.getD i defaultToken

/-- Mirrors Rust `fn get_char`. -/
def get_char (it : It) (expected : Char) : Except ParseError Nat :=
  match it with
  | (i, c) :: _ => if c = expected then .ok i else .error (.unknown i c)
  | [] => .error .eof

/-- Mirrors Rust `fn is_digit`. -/
def is_digit (c : Char) : Bool :=
  '0' ≤ c ∧ c ≤ '9'

/-- Mirrors Rust `JsonToken::get_null_token`. -/
def get_null_token (it : It) (start : Nat) : Except ParseError (JsonToken × It) :=
  match get_char it 'u' with
  | .error e => .error e
  | .ok _ =>
    match get_char it.tail 'l' with
    | .error e => .error e
    | .ok _ =>
      match get_char it.tail.tail 'l' with
      | .error e => .error e
      | .ok _ => .ok (⟨start, .value .null⟩, it.tail.tail.tail)

/-- Mirrors Rust `JsonToken::get_true_token`. -/
def get_true_token (it : It) (start : Nat) : Except ParseError (JsonToken × It) :=
  match get_char it 'r' with
  | .error e => .error e
  | .ok _ =>
    match get_char it.tail 'u' with
    | .error e => .error e
    | .ok _ =>
      match get_char it.tail.tail 'e' with
      | .error e => .error e
      | .ok _ => .ok (⟨start, .value .true⟩, it.tail.tail.tail)

/-- Mirrors Rust `JsonToken::get_false_token`. -/
def get_false_token (it : It) (start : Nat) : Except ParseError (JsonToken × It) :=
  match get_char it 'a' with
  | .error e => .error e
  | .ok _ =>
    match get_char it.tail 'l' with
    | .error e => .error e
    | .ok _ =>
      match get_char it.tail.tail 's' with
      | .error e => .error e
      | .ok _ =>
        match get_char it.tail.tail.tail 'e' with
        | .error e => .error e
        | .ok _ => .ok (⟨start, .value .false⟩, it.tail.tail.tail.tail)

/-- The digit-skipping `while let` loop of `get_number_token`:
returns the rest of the iterator, the offset of the last digit consumed,
and the `last` variable (the character that stopped the loop, unchanged
on end of input). -/
def skip_digits : It → Nat → Char → It × Nat × Char
  | [], digit, last => ([], digit, last)
  | (i, c) :: rest, digit, last =>
    if is_digit c then skip_digits rest i last
    else ((i, c) :: rest, digit, c)

/-- Mirrors Rust `JsonToken::get_number_token`.  Note that after `E`/`e`
the Rust code *requires* a `+` or `-` sign and otherwise fails with
`ParseError::Unknown` — an unsigned exponent such as `1e5` is rejected. -/
def get_number_token (it : It) (start : Nat) : Except ParseError (JsonToken × It) :=
  let s₁ := skip_digits it start ' '
  let s₂ := if s₁.2.2 = '.' then skip_digits s₁.1.tail s₁.2.1 s₁.2.2 else s₁
  if s₂.2.2 = 'E' ∨ s₂.2.2 = 'e' then
    match s₂.1.tail with
    | (i, c) :: rest =>
      if c = '+' ∨ c = '-' then
        let s₃ := skip_digits rest s₂.2.1 s₂.2.2
        .ok (⟨start, .value (.number (s₃.2.1 + 1 - start))⟩, s₃.1)
      else .error (.unknown i c)
    | [] => .error .eof
  else
    .ok (⟨start, .value (.number (s₂.2.1 + 1 - start))⟩, s₂.1)

/-- Mirrors Rust `JsonToken::get_string_token`. -/
def get_string_token : It → Nat → Except ParseError (JsonToken × It)
  | [], _ => .error .eof
  | (i, c) :: rest, start =>
    if c = '"' then .ok (⟨start, .value (.string (i + 1 - start))⟩, rest)
    else get_string_token rest start

/-- The result type of `JsonParser::parse`: token returned, rest of the
iterator, and the token vector after the call. -/
abbrev ParseRes := Except ParseError (JsonToken × It × List JsonToken)

/-- The result type of `get_array_token` / `get_object_token`:
item count, rest of iterator, token vector. -/
abbrev CountRes := Except ParseError (Nat × It × List JsonToken)

/-- The bundle of the six mutually recursive functions of `JsonParser`,
used to tie the recursive knot one fuel level at a time. -/
structure StepFns where
  parse : It → List JsonToken → ParseRes
  arr : It → List JsonToken → CountRes
  arrLoop : Nat → It → List JsonToken → CountRes
  cv : It → List JsonToken → ParseRes
  obj : It → List JsonToken → CountRes
  objLoop : Nat → It → List JsonToken → CountRes

/-- The shared push-and-return pattern of the five scalar arms of
`JsonParser::parse`. -/
def parseScalar (res : Except ParseError (JsonToken × It)) (ts : List JsonToken) : ParseRes :=
  match res with
  | .error e => .error e
  | .ok (tok, it₂) => .ok (tok, it₂, ts ++ [tok])

/-- The `'['` arm of `JsonParser::parse`: push a placeholder open token,
scan the elements, then back-patch the open token with the real close
index and the close token with the element count. -/
def parseOpenArray (F : StepFns) (i : Nat) (it₁ : It) (ts : List JsonToken) : ParseRes :=
  match F.arr it₁ (ts ++ [⟨i, .value (.arrayOpen (ts.length + 1))⟩]) with
  | .error e => .error e
  | .ok (item_count, it₂, ts₂) =>
    let close_index := ts₂.length - 1
    let tokO : JsonToken := ⟨i, .value (.arrayOpen close_index)⟩
    let ts₃ := ts₂.set ts.length tokO
    let ts₄ := ts₃.set close_index ⟨(tokAt ts₃ close_index).start, .arrayClose item_count⟩
    .ok (tokO, it₂, ts₄)

/-- The `'{'` arm of `JsonParser::parse`, mirror of `parseOpenArray`. -/
def parseOpenObject (F : StepFns) (i : Nat) (it₁ : It) (ts : List JsonToken) : ParseRes :=
  match F.obj it₁ (ts ++ [⟨i, .value (.objectOpen (ts.length + 1))⟩]) with
  | .error e => .error e
  | .ok (item_count, it₂, ts₂) =>
    let close_index := ts₂.length - 1
    let tokO : JsonToken := ⟨i, .value (.objectOpen close_index)⟩
    let ts₃ := ts₂.set ts.length tokO
    let ts₄ := ts₃.set close_index ⟨(tokAt ts₃ close_index).start, .objectClose item_count⟩
    .ok (tokO, it₂, ts₄)

/-- The structural-character arms of the `match c` dispatch of
`JsonParser::parse` (all the arms of the Rust `match` whose characters
are not value-starting; the arms are pairwise disjoint, so splitting the
dispatch in two preserves it exactly). -/
def parseCharStruct (F : StepFns) (i : Nat) (c : Char) (it₁ : It)
    (ts : List JsonToken) : ParseRes :=
  if c = ',' then .ok (⟨i, .comma⟩, it₁, ts)
  else if c = '[' then parseOpenArray F i it₁ ts
  else if c = ']' then .ok (⟨i, .arrayClose 0⟩, it₁, ts ++ [⟨i, .arrayClose 0⟩])
  else if c = ':' then .ok (⟨i, .colon⟩, it₁, ts)
  else if c = '\x7b' then parseOpenObject F i it₁ ts
  else if c = '\x7d' then .ok (⟨i, .objectClose 0⟩, it₁, ts ++ [⟨i, .objectClose 0⟩])
  else .error (.unknown i c)

/-- The value-starting arms of the `match c` dispatch of
`JsonParser::parse`, falling through to the structural arms. -/
def parseChar (F : StepFns) (i : Nat) (c : Char) (it₁ : It) (ts : List JsonToken) : ParseRes :=
  if c = 'n' then parseScalar (get_null_token it₁ i) ts
  else if c = 't' then parseScalar (get_true_token it₁ i) ts
  else if c = 'f' then parseScalar (get_false_token it₁ i) ts
  else if is_digit c ∨ c = '-' then parseScalar (get_number_token it₁ i) ts
  else if c = '"' then parseScalar (get_string_token it₁ i) ts
  else parseCharStruct F i c it₁ ts

/-- Body of `JsonParser::parse`, with the recursive calls abstracted:
skip whitespace, then dispatch on the character. -/
def parseStep (F : StepFns) : It → List JsonToken → ParseRes
  | [], _ => .error .eof
  | (i, c) :: it₁, ts =>
    if c.isWhitespace then F.parse it₁ ts else parseChar F i c it₁ ts

/-- Body of `JsonParser::get_array_token` up to entering the loop. -/
def arrStep (F : StepFns) (it : It) (ts : List JsonToken) : CountRes :=
  match F.parse it ts with
  | .error e => .error e
  | .ok (tok, it₁, ts₁) =>
    match tok.data with
    | .arrayClose _ => .ok (0, it₁, ts₁)
    | .objectClose _ => .error (.unknown tok.start '\x7d')
    | .value _ => F.arrLoop 1 it₁ ts₁
    | .comma => .error (.unknown tok.start ',')
    | .colon => .error (.unknown tok.start ':')

/-- The `loop` of `get_array_token` (one comma-or-close step then a
mandatory value), with `count` elements already seen. -/
def arrLoopStep (F : StepFns) (count : Nat) (it : It) (ts : List JsonToken) : CountRes :=
  match F.parse it ts with
  | .error e => .error e
  | .ok (tok, it₁, ts₁) =>
    match tok.data with
    | .arrayClose _ => .ok (count, it₁, ts₁)
    | .objectClose _ => .error (.unknown tok.start '\x7d')
    | .value v => .error (.value tok.start v)
    | .colon => .error (.unknown tok.start ':')
    | .comma =>
      if count > 0 then
        match F.parse it₁ ts₁ with
        | .error e => .error e
        | .ok (tok₂, it₂, ts₂) =>
          match tok₂.data with
          | .value _ => F.arrLoop (count + 1) it₂ ts₂
          | .arrayClose _ => .error (.unknown tok₂.start ']')
          | .objectClose _ => .error (.unknown tok₂.start '\x7d')
          | .comma => .error (.unknown tok₂.start ',')
          | .colon => .error (.unknown tok₂.start ':')
      else .error (.unknown tok.start ',')

/-- Body of `JsonParser::colon_value`. -/
def cvStep (F : StepFns) (it : It) (ts : List JsonToken) : ParseRes :=
  match F.parse it ts with
  | .error e => .error e
  | .ok (tok, it₁, ts₁) =>
    match tok.data with
    | .arrayClose _ => .error (.unknown tok.start ']')
    | .objectClose _ => .error (.unknown tok.start '\x7d')
    | .value v => .error (.value tok.start v)
    | .comma => .error (.unknown tok.start ',')
    | .colon =>
      match F.parse it₁ ts₁ with
      | .error e => .error e
      | .ok (tok₂, it₂, ts₂) =>
        match tok₂.data with
        | .value _ => .ok (tok₂, it₂, ts₂)
        | .arrayClose _ => .error (.unknown tok₂.start ']')
        | .objectClose _ => .error (.unknown tok₂.start '\x7d')
        | .comma => .error (.unknown tok₂.start ',')
        | .colon => .error (.unknown tok₂.start ':')

/-- Body of `JsonParser::get_object_token` up to entering the loop. -/
def objStep (F : StepFns) (it : It) (ts : List JsonToken) : CountRes :=
  match F.parse it ts with
  | .error e => .error e
  | .ok (tok, it₁, ts₁) =>
    match tok.data with
    | .arrayClose _ => .error (.unknown tok.start ']')
    | .objectClose _ => .ok (0, it₁, ts₁)
    | .comma => .error (.unknown tok.start ',')
    | .colon => .error (.unknown tok.start ':')
    | .value _ =>
      match F.cv it₁ ts₁ with
      | .error e => .error e
      | .ok (_, it₂, ts₂) => F.objLoop 1 it₂ ts₂

/-- The `loop` of `get_object_token` (comma-or-close, then key, then
`colon_value`), with `count` pairs already seen. -/
def objLoopStep (F : StepFns) (count : Nat) (it : It) (ts : List JsonToken) : CountRes :=
  match F.parse it ts with
  | .error e => .error e
  | .ok (tok, it₁, ts₁) =>
    match tok.data with
    | .arrayClose _ => .error (.unknown tok.start ']')
    | .objectClose _ => .ok (count, it₁, ts₁)
    | .value v => .error (.value tok.start v)
    | .colon => .error (.unknown tok.start ':')
    | .comma =>
      match F.parse it₁ ts₁ with
      | .error e => .error e
      | .ok (tok₂, it₂, ts₂) =>
        match tok₂.data with
        | .arrayClose _ => .error (.unknown tok₂.start ']')
        | .objectClose _ => .error (.unknown tok₂.start '\x7d')
        | .comma => .error (.unknown tok₂.start ',')
        | .colon => .error (.unknown tok₂.start ':')
        | .value _ =>
          match F.cv it₂ ts₂ with
          | .error e => .error e
          | .ok (_, it₃, ts₃) => F.objLoop (count + 1) it₃ ts₃

/-- Fuel level 0: every call fails (fuel exhaustion, reported as `eof`). -/
def errFns : StepFns :=
  ⟨fun _ _ => .error .eof, fun _ _ => .error .eof, fun _ _ _ => .error .eof,
   fun _ _ => .error .eof, fun _ _ => .error .eof, fun _ _ _ => .error .eof⟩

/-- The whole mutually recursive scanner at a given fuel level. -/
def PAll : Nat → StepFns
  | 0 => errFns
  | fuel + 1 =>
    let F := PAll fuel
    ⟨parseStep F, arrStep F, arrLoopStep F, cvStep F, objStep F, objLoopStep F⟩

/-- `JsonParser::parse` at a fuel level. -/
def parse (fuel : Nat) : It → List JsonToken → ParseRes :=
  (PAll fuel).parse

/-- `JsonParser::get_array_token` at a fuel level. -/
def get_array_token (fuel : Nat) : It → List JsonToken → CountRes :=
  (PAll fuel).arr

/-- `JsonParser::colon_value` at a fuel level. -/
def colon_value (fuel : Nat) : It → List JsonToken → ParseRes :=
  (PAll fuel).cv

/-- `JsonParser::get_object_token` at a fuel level. -/
def get_object_token (fuel : Nat) : It → List JsonToken → CountRes :=
  (PAll fuel).obj

/-- Fuel that is far more than any run on `src` can consume: every call
either consumes a character before the next nested call or is one of a
bounded number of bookkeeping steps. -/
def fuelFor (src : List Char) : Nat :=
  8 * src.length + 64

/-- Mirrors Rust `JsonParser::process`: tokenize one value, returning the
token vector on success and the first error otherwise (the Rust code
prints the error and panics, so on failure its caller receives no token
vector either). -/
def process (src : List Char) : Except ParseError (List JsonToken) :=
  match parse (fuelFor src) (charIndices src) [] with
  | .ok (_, _, ts) => .ok ts
  | .error e => .error e

/-- Mirrors Rust `JsonParser::next_sibling_index`.  The Rust function
panics on non-value tokens; the model returns `index + 1` there, and no
theorem applies it to a non-value token. -/
def next_sibling_index (ts : List JsonToken) (index : Nat) : Nat :=
  match (tokAt ts index).data with
  | .value (.arrayOpen closeIndex) => closeIndex + 1
  | .value (.objectOpen closeIndex) => closeIndex + 1
  | _ => index + 1

/-- `next_sibling_index` applied `n` times. -/
def iterate_sibling (ts : List JsonToken) : Nat → Nat → Nat
  | 0, cur => cur
  | n + 1, cur => iterate_sibling ts n (next_sibling_index ts cur)

/-- Mirrors Rust `JsonParser::value_len` (panics on containers; the model
returns 0 there, and `get_slice` never reaches that arm for containers). -/
def value_len (v : JsonValue) : Nat :=
  match v with
  | .null => 4
  | .true => 4
  | .false => 5
  | .number n => n
  | .string n => n
  | .arrayOpen _ => 0
  | .objectOpen _ => 0

/-- The byte slice `&src[s..e]` as a list of characters. -/
def byteSlice (src : List Char) (s e : Nat) : List Char :=
  ((charIndices src).filter (fun p => decide (s ≤ p.1 ∧ p.1 < e))).map (fun p => p.2)

/-- Mirrors Rust `JsonParser::get_slice`. -/
def get_slice (src : List Char) (ts : List JsonToken) (index : Nat) : List Char :=
  let token := tokAt ts index
  let e :=
    match token.data with
    | .value (.arrayOpen closeIndex) => (tokAt ts closeIndex).start + 1
    | .value (.objectOpen closeIndex) => (tokAt ts closeIndex).start + 1
    | .value v => token.start + value_len v
    | _ => token.start + 1
  byteSlice src token.start e

/-- The model of Rust `str::parse::<i64>`: optional sign, nonempty digit
run, value within the `i64` range. -/
def parse_i64 (s : List Char) : Option Int :=
  match s with
  | [] => none
  | c :: rest =>
    let neg := c = '-'
    let digits := if c = '-' ∨ c = '+' then rest else s
    if digits = [] then none
    else if digits.all is_digit then
      let n : Nat := digits.foldl (fun acc d => acc * 10 + (d.toNat - '0'.toNat)) 0
      let v : Int := if neg then -(n : Int) else (n : Int)
      if -(2 ^ 63) ≤ v ∧ v < 2 ^ 63 then some v else none
    else none

/-- Mirrors Rust `JsonParser::get_int`. -/
def get_int (src : List Char) (ts : List JsonToken) (index : Nat) : Option Int :=
  match (tokAt ts index).data with
  | .value (.number len) =>
    parse_i64 (byteSlice src (tokAt ts index).start ((tokAt ts index).start + len))
  | _ => none

/-- Mirrors Rust `JsonParser::get_bool`. -/
def get_bool (ts : List JsonToken) (index : Nat) : Option Bool :=
  match (tokAt ts index).data with
  | .value .true => some Bool.true
  | .value .false => some Bool.false
  | _ => none

/-- Mirrors Rust `JsonParser::get_string`: the substring strictly between
the quotes. -/
def get_string (src : List Char) (ts : List JsonToken) (index : Nat) : Option (List Char) :=
  match (tokAt ts index).data with
  | .value (.string len) =>
    some (byteSlice src ((tokAt ts index).start + 1) ((tokAt ts index).start + len - 1))
  | _ => none

/-- Mirrors Rust `struct JsonNodeError`. -/
structure JsonNodeError where
deriving DecidableEq

/-- Mirrors Rust `JsonNode::get`: a view is just its token index. -/
def node_get (ts : List JsonToken) (self index : Nat) : Except JsonNodeError Nat :=
  match (tokAt ts self).data with
  | .value (.arrayOpen _) => .ok (iterate_sibling ts index (self + 1))
  | _ => .error ⟨⟩

/-- The de-quoting byte slice `&key[1..key.len() - 1]` used by
`JsonNode::key` on the rendered key slice (first and last byte removed;
on tokenizer output those are the two quote characters, each one byte). -/
def dequote (key : List Char) : List Char :=
  (key.drop 1).dropLast

/-- The `while current < close_index` loop of `JsonNode::key`.  The Rust
loop can only diverge on token vectors the tokenizer never produces; the
model bounds it by fuel (one unit per key/value pair, each of which moves
`current` strictly forward on tokenizer output) and reports `not found`
on exhaustion. -/
def key_scan (src : List Char) (ts : List JsonToken) (close_index : Nat)
    (target : List Char) : Nat → Nat → Except JsonNodeError Nat
  | 0, _ => .error ⟨⟩
  | fuel + 1, current =>
    if current < close_index then
      let key_index := current
      let value_index := next_sibling_index ts key_index
      let key := get_slice src ts key_index
      if dequote key = target then .ok value_index
      else key_scan src ts close_index target fuel (next_sibling_index ts value_index)
    else .error ⟨⟩

/-- Mirrors Rust `JsonNode::key`. -/
def node_key (src : List Char) (ts : List JsonToken) (self : Nat)
    (target : List Char) : Except JsonNodeError Nat :=
  match (tokAt ts self).data with
  | .value (.objectOpen close_index) =>
    key_scan src ts close_index target (ts.length + 1) (self + 1)
  | _ => .error ⟨⟩

/-- Mirrors Rust `JsonNode::array_len`: it returns `None` for every view,
whatever the token at the view's index is. -/
def array_len (_ts : List JsonToken) (_index : Nat) : Option Nat :=
  none

/-- Mirrors Rust `JsonNode::object_len`: constant 0. -/
def object_len (_ts : List JsonToken) (_index : Nat) : Nat :=
  0

/-- Mirrors Rust `JsonSchema::set_allof`.  Its guard demands
`array_len() == Some(1)`, which `array_len` can never produce. -/
def set_allof (src : List Char) (ts : List JsonToken) (v : Nat) : Except JsonNodeError Nat :=
  if array_len ts v = some 1 then
    match node_get ts v 0 with
    | .ok node =>
      if object_len ts node = 1 then
        match node_key src ts node ("$ref".toList) with
        | .ok value =>
          match get_string src ts value with
          | some _ => .ok value
          | none => .error ⟨⟩
        | .error e => .error e
      else .error ⟨⟩
    | .error _ => .error ⟨⟩
  else .error ⟨⟩

/-- `true` for the payload of a scalar value token (not an open container,
not punctuation, not a close). -/
def scalarData : JsonTokenData → Bool
  | .value (.arrayOpen _) => Bool.false
  | .value (.objectOpen _) => Bool.false
  | .value _ => Bool.true
  | _ => Bool.false

/-- Well-nested token forests.  `Forest ts n s e` says that positions
`[s, e)` of the token vector `ts` hold exactly `n` consecutive complete
value trees: each tree is either a single scalar token, or an
open-container token whose recorded close index `c` holds the matching
close token (with the child count recorded on the close: `m` children
for an array, `m` key/value pairs — `2 * m` trees — for an object) and
whose body occupies exactly `(s, c)`. -/
inductive Forest (ts : List JsonToken) : Nat → Nat → Nat → Prop where
  | nil (s : Nat) : Forest ts 0 s s
  | scalar (s e n : Nat)
      (hs : scalarData (tokAt ts s).data = Bool.true)
      (rest : Forest ts n (s + 1) e) : Forest ts (n + 1) s e
  | array (s c m e n : Nat)
      (ho : (tokAt ts s).data = .value (.arrayOpen c))
      (hc : (tokAt ts c).data = .arrayClose m)
      (body : Forest ts m (s + 1) c)
      (rest : Forest ts n (c + 1) e) : Forest ts (n + 1) s e
  | object (s c m e n : Nat)
      (ho : (tokAt ts s).data = .value (.objectOpen c))
      (hc : (tokAt ts c).data = .objectClose m)
      (body : Forest ts (2 * m) (s + 1) c)
      (rest : Forest ts n (c + 1) e) : Forest ts (n + 1) s e

/-- Position `i` of `ts` holds an open-container token whose recorded
close index is `c`. -/
def openAt (ts : List JsonToken) (i c : Nat) : Prop :=
  (tokAt ts i).data = .value (.arrayOpen c) ∨ (tokAt ts i).data = .value (.objectOpen c)

/-- Specification of a successful `parse` call: how the token vector
grows, by case on the returned token.  Punctuation pushes nothing, a
bare close pushes exactly itself, and a value extends the vector with
one complete value tree spanning exactly the appended region. -/
def PParse (ts : List JsonToken) (tok : JsonToken) (ts₂ : List JsonToken) : Prop :=
  match tok.data with
  | .comma => ts₂ = ts
  | .colon => ts₂ = ts
  | .arrayClose _ => ts₂ = ts ++ [tok]
  | .objectClose _ => ts₂ = ts ++ [tok]
  | .value _ =>
    (∃ Δ, ts₂ = ts ++ Δ) ∧ Forest ts₂ 1 ts.length ts₂.length ∧ ts.length < ts₂.length

/-- Specification of a successful `get_array_token` (`mult = 1`) or
`get_object_token` (`mult = 2`) call: the appended region is a forest of
`mult * cnt` trees followed by one trailing token (the not-yet-patched
close token). -/
def PCount (mult : Nat) (ts : List JsonToken) (cnt : Nat) (ts₂ : List JsonToken) : Prop :=
  (∃ Δ last, ts₂ = ts ++ Δ ++ [last]) ∧ Forest ts₂ (mult * cnt) ts.length (ts₂.length - 1)

/-- Specification of a successful inner loop call, entered with `count`
items already consumed before `ts`. -/
def PLoopC (mult : Nat) (ts : List JsonToken) (count cnt₂ : Nat) (ts₂ : List JsonToken) : Prop :=
  ∃ k, cnt₂ = count + k ∧ (∃ Δ last, ts₂ = ts ++ Δ ++ [last]) ∧
    Forest ts₂ (mult * k) ts.length (ts₂.length - 1)

/-- Specification of a successful `colon_value` call: the colon pushes
nothing and the value appends one complete tree. -/
def PCV (ts ts₂ : List JsonToken) : Prop :=
  (∃ Δ, ts₂ = ts ++ Δ) ∧ Forest ts₂ 1 ts.length ts₂.length ∧ ts.length < ts₂.length

/-- All six scanner functions of a bundle satisfy their specifications. -/
def FnsOk (F : StepFns) : Prop :=
  (∀ it ts tok it₂ ts₂, F.parse it ts = .ok (tok, it₂, ts₂) → PParse ts tok ts₂) ∧
  (∀ it ts cnt it₂ ts₂, F.arr it ts = .ok (cnt, it₂, ts₂) → PCount 1 ts cnt ts₂) ∧
  (∀ count it ts cnt₂ it₂ ts₂,
    F.arrLoop count it ts = .ok (cnt₂, it₂, ts₂) → PLoopC 1 ts count cnt₂ ts₂) ∧
  (∀ it ts tok it₂ ts₂, F.cv it ts = .ok (tok, it₂, ts₂) → PCV ts ts₂) ∧
  (∀ it ts cnt it₂ ts₂, F.obj it ts = .ok (cnt, it₂, ts₂) → PCount 2 ts cnt ts₂) ∧
  (∀ count it ts cnt₂ it₂ ts₂,
    F.objLoop count it ts = .ok (cnt₂, it₂, ts₂) → PLoopC 2 ts count cnt₂ ts₂)

/-! ### Concrete inputs used by the example-driven claims -/

/-- Input of the spec's first round-trip example. -/
def srcOne : List Char := " 1".toList

/-- Its token vector. -/
def tokOne : List JsonToken := [⟨1, .value (.number 1)⟩]

/-- Input of the spec's second round-trip example. -/
def srcHoge : List Char := " \"hoge\" ".toList

/-- Its token vector. -/
def tokHoge : List JsonToken := [⟨1, .value (.string 6)⟩]

/-- Input `[1, 2, 3]` of the index-access example. -/
def srcArr : List Char := "[1, 2, 3]".toList

/-- Its token vector. -/
def tokArr : List JsonToken :=
  [⟨0, .value (.arrayOpen 4)⟩, ⟨1, .value (.number 1)⟩, ⟨4, .value (.number 1)⟩,
   ⟨7, .value (.number 1)⟩, ⟨8, .arrayClose 3⟩]

/-- Input `{"key": true}` of the key-lookup example. -/
def srcObj : List Char := "\x7b\"key\": true\x7d".toList

/-- Its token vector. -/
def tokObj : List JsonToken :=
  [⟨0, .value (.objectOpen 3)⟩, ⟨1, .value (.string 5)⟩, ⟨8, .value .true⟩,
   ⟨12, .objectClose 1⟩]

/-- Input `[1, 2,]` (trailing comma). -/
def srcTrailing : List Char := "[1, 2,]".toList

/-- Input `{"a":1` (unterminated object). -/
def srcUnterminated : List Char := "\x7b\"a\":1".toList

/-- A number with an unsigned exponent, rejected by the code. -/
def srcExpUnsigned : List Char := "1e5".toList

/-- A number with a signed exponent, accepted by the code. -/
def srcExpSigned : List Char := "1e+5".toList

/-- A lone minus sign, accepted by the code as a number. -/
def srcMinus : List Char := "-".toList

/-- A truncated array, failing with `Eof`. -/
def srcTruncated : List Char := "[1,".toList

/-! ### Theorems -/

/-- C3: tokenization either returns a token vector or fails with a
`ParseError`; never both, and on failure no (partial) token vector is
handed to the caller.  The concrete conjuncts show both outcomes are
realized: a valid scalar tokenizes, and a truncated array fails with the
first error (`Eof`) without any recovery. -/
theorem C3_fail_fast :
    (∀ src : List Char,
      (∃ ts, process src = .ok ts ∧ ∀ e, process src ≠ .error e) ∨
      (∃ e, process src = .error e ∧ ∀ ts, process src ≠ .ok ts)) ∧
    process ("1".toList) = .ok [⟨0, .value (.number 1)⟩] ∧
    process srcTruncated = .error .eof := by
  refine ⟨fun src => ?_, by decide, by decide⟩
  cases h : process src with
  | ok ts => exact .inl ⟨ts, rfl, fun e he => by simp [h] at he⟩
  | error e => exact .inr ⟨e, rfl, fun ts hts => by simp [h] at hts⟩

/-- C4: the code rejects the unsigned exponent `1e5` with
`Unknown('5' at 2)` (the claim says the exponent's sign is optional),
while accepting `1e+5`; it also accepts the lone `-` — an empty digit
run — as a number token, against the claim's "exactly". -/
theorem C4_number_exponent :
    process srcExpUnsigned = .error (.unknown 2 '5') ∧
    process srcExpSigned = .ok [⟨0, .value (.number 4)⟩] ∧
    process srcMinus = .ok [⟨0, .value (.number 1)⟩] := by
  decide

/-- C5: round-trip of span — tokenizing `" 1"` yields a root whose
rendered slice is `"1"`, and tokenizing `' "hoge" '` yields a root whose
rendered slice is the six characters `"hoge"` including both quotes. -/
theorem C5_render_roundtrip :
    process srcOne = .ok tokOne ∧ get_slice srcOne tokOne 0 = "1".toList ∧
    process srcHoge = .ok tokHoge ∧ get_slice srcHoge tokHoge 0 = "\"hoge\"".toList := by
  decide

/-- C6: for `[1, 2, 3]`, indexing the root view with 0, 1, 2 and reading
each as an integer yields 1, 2, 3, and the first element's rendered
slice is `"1"`. -/
theorem C6_index_access :
    process srcArr = .ok tokArr ∧
    node_get tokArr 0 0 = .ok 1 ∧ node_get tokArr 0 1 = .ok 2 ∧ node_get tokArr 0 2 = .ok 3 ∧
    get_int srcArr tokArr 1 = some 1 ∧ get_int srcArr tokArr 2 = some 2 ∧
    get_int srcArr tokArr 3 = some 3 ∧
    get_slice srcArr tokArr 1 = "1".toList := by
  decide

/-- C8: `[1, 2,]` (trailing comma) fails tokenization with an
unexpected-character error carrying the offset 6 of the `]`, and the
unterminated `{"a":1` fails with `Eof`. -/
theorem C8_malformed_rejection :
    process srcTrailing = .error (.unknown 6 ']') ∧
    process srcUnterminated = .error .eof := by
  decide

/-- C9: `get_bool` yields `true`/`false` exactly for `True`/`False`
tokens and `none` for every other token; `get_string` yields, for a
`String` token of recorded length `len` at offset `s`, exactly the
source bytes strictly between the quotes (`[s+1, s+len-1)`), and `none`
for every other token.  Both are total functions — no error outcome
exists. -/
theorem C9_scalar_access : ∀ (src : List Char) (ts : List JsonToken) (i : Nat),
    (get_bool ts i = some Bool.true ↔ (tokAt ts i).data = .value .true) ∧
    (get_bool ts i = some Bool.false ↔ (tokAt ts i).data = .value .false) ∧
    (get_bool ts i = none ↔
      (tokAt ts i).data ≠ .value .true ∧ (tokAt ts i).data ≠ .value .false) ∧
    (∀ len, (tokAt ts i).data = .value (.string len) →
      get_string src ts i =
        some (byteSlice src ((tokAt ts i).start + 1) ((tokAt ts i).start + len - 1))) ∧
    (get_string src ts i = none ↔ ∀ len, (tokAt ts i).data ≠ .value (.string len)) := by
  intro src ts i
  cases h : (tokAt ts i).data with
  | value v => cases v <;> simp [get_bool, get_string, h]
  | comma => simp [get_bool, get_string, h]
  | colon => simp [get_bool, get_string, h]
  | arrayClose n => simp [get_bool, get_string, h]
  | objectClose n => simp [get_bool, get_string, h]

/-- Witness for C9 at a concrete input: the string token of
`' "hoge" '` de-quotes to `hoge`. -/
theorem C9_scalar_access_witness :
    get_string srcHoge tokHoge 0 = some ("hoge".toList) := by
  have h := (C9_scalar_access srcHoge tokHoge 0).2.2.2.1 6 (by decide)
  rw [h]
  decide

/-- C10: `array_len` returns `none` for every view — in particular for a
view on an `ArrayOpen` token — hence `set_allof`, whose guard requires
`array_len = some 1`, returns an error for every input. -/
theorem C10_allof_always_fails : ∀ (src : List Char) (ts : List JsonToken) (v : Nat),
    array_len ts v = none ∧ set_allof src ts v = .error ⟨⟩ := by
  intro src ts v
  exact ⟨rfl, rfl⟩

/-! ### Token-vector access lemmas -/

theorem tokAt_oob (ts : List JsonToken) (i : Nat) (h : ts.length ≤ i) :
    tokAt ts i = defaultToken :=
  List.getD_eq_default ts defaultToken h

theorem tokAt_append_lt (ts Δ : List JsonToken) (i : Nat) (h : i < ts.length) :
    tokAt (ts ++ Δ) i = tokAt ts i :=
  List.getD_append ts Δ defaultToken i h

theorem tokAt_append_at (ts : List JsonToken) (t : JsonToken) (Δ : List JsonToken) :
    tokAt (ts ++ t :: Δ) ts.length = t := by
  unfold tokAt
  rw [List.getD_append_right ts (t :: Δ) defaultToken ts.length (Nat.le_refl _)]
  simp

theorem tokAt_set_self (ts : List JsonToken) (i : Nat) (x : JsonToken) (h : i < ts.length) :
    tokAt (ts.set i x) i = x := by
  unfold tokAt
  rw [List.getD_eq_getD_get?, List.get?_eq_getElem?, List.getElem?_set_self h]
  rfl

theorem tokAt_set_ne (ts : List JsonToken) (i j : Nat) (x : JsonToken) (h : i ≠ j) :
    tokAt (ts.set i x) j = tokAt ts j := by
  unfold tokAt
  rw [List.getD_eq_getD_get?, List.getD_eq_getD_get?, List.get?_eq_getElem?,
    List.get?_eq_getElem?, List.getElem?_set_ne h]

theorem set_append_skip (l₁ l₂ : List JsonToken) (k : Nat) (x : JsonToken) :
    (l₁ ++ l₂).set (l₁.length + k) x = l₁ ++ l₂.set k x := by
  induction l₁ with
  | nil => simp
  | cons a l ih =>
    have hlen : (a :: l).length + k = (l.length + k) + 1 := by
      simp [List.length_cons]
      omega
    rw [List.cons_append, hlen, List.set_cons_succ, ih, List.cons_append]

/-! ### Structural lemmas about well-nested forests -/

theorem forest_le {ts : List JsonToken} {n s e : Nat} (h : Forest ts n s e) : s ≤ e := by
  induction h <;> omega

theorem forest_append {ts : List JsonToken} {a s mid : Nat} (h₁ : Forest ts a s mid) :
    ∀ {b e : Nat}, Forest ts b mid e → Forest ts (a + b) s e := by
  induction h₁ with
  | nil s => intro b e h₂; simpa using h₂
  | scalar s e n hs rest ih =>
    intro b e₂ h₂
    have hres := Forest.scalar s e₂ (n + b) hs (ih h₂)
    have harith : n + 1 + b = n + b + 1 := by omega
    rw [harith]
    exact hres
  | array s c m e n ho hc body rest ihb ihr =>
    intro b e₂ h₂
    have hres := Forest.array s c m e₂ (n + b) ho hc body (ihr h₂)
    have harith : n + 1 + b = n + b + 1 := by omega
    rw [harith]
    exact hres
  | object s c m e n ho hc body rest ihb ihr =>
    intro b e₂ h₂
    have hres := Forest.object s c m e₂ (n + b) ho hc body (ihr h₂)
    have harith : n + 1 + b = n + b + 1 := by omega
    rw [harith]
    exact hres

theorem forest_congr {ts ts₂ : List JsonToken} {n s e : Nat} (h : Forest ts n s e) :
    (∀ i, s ≤ i → i < e → tokAt ts₂ i = tokAt ts i) → Forest ts₂ n s e := by
  induction h with
  | nil s => intro _; exact Forest.nil s
  | scalar s e n hs rest ih =>
    intro hagree
    have hse : s + 1 ≤ e := forest_le rest
    refine Forest.scalar s e n ?_ (ih fun i h1 h2 => hagree i (by omega) h2)
    rw [hagree s (Nat.le_refl s) (by omega)]
    exact hs
  | array s c m e n ho hc body rest ihb ihr =>
    intro hagree
    have h1 : s + 1 ≤ c := forest_le body
    have h2 : c + 1 ≤ e := forest_le rest
    refine Forest.array s c m e n ?_ ?_
      (ihb fun i hi1 hi2 => hagree i (by omega) (by omega))
      (ihr fun i hi1 hi2 => hagree i (by omega) hi2)
    · rw [hagree s (Nat.le_refl s) (by omega)]
      exact ho
    · rw [hagree c (by omega) (by omega)]
      exact hc
  | object s c m e n ho hc body rest ihb ihr =>
    intro hagree
    have h1 : s + 1 ≤ c := forest_le body
    have h2 : c + 1 ≤ e := forest_le rest
    refine Forest.object s c m e n ?_ ?_
      (ihb fun i hi1 hi2 => hagree i (by omega) (by omega))
      (ihr fun i hi1 hi2 => hagree i (by omega) hi2)
    · rw [hagree s (Nat.le_refl s) (by omega)]
      exact ho
    · rw [hagree c (by omega) (by omega)]
      exact hc

/-- A forest stays a forest when the token vector is extended on the
right (provided the forest's span was within the vector). -/
theorem forest_append_toks {ts Δ : List JsonToken} {n s e : Nat} (h : Forest ts n s e)
    (hb : e ≤ ts.length) : Forest (ts ++ Δ) n s e :=
  forest_congr h fun i _ h2 => tokAt_append_lt ts Δ i (by omega)

/-- Every open-container token inside a forest has its matching close
token at its recorded close index, with the body forming a forest that
spans exactly the open interval between them. -/
theorem forest_open {ts : List JsonToken} {n s e : Nat} (h : Forest ts n s e) :
    ∀ i c, s ≤ i → i < e → openAt ts i c →
      i < c ∧ c < e ∧
      ((tokAt ts i).data = .value (.arrayOpen c) →
        ∃ m, (tokAt ts c).data = .arrayClose m ∧ Forest ts m (i + 1) c) ∧
      ((tokAt ts i).data = .value (.objectOpen c) →
        ∃ m, (tokAt ts c).data = .objectClose m ∧ Forest ts (2 * m) (i + 1) c) := by
  induction h with
  | nil s => intro i c h1 h2 h3; omega
  | scalar s e n hs rest ih =>
    intro i c h1 h2 h3
    rcases Nat.eq_or_lt_of_le h1 with heq | hlt
    · exfalso
      rw [heq] at hs
      cases h3 with
      | inl ha => rw [ha] at hs; simp [scalarData] at hs
      | inr hb => rw [hb] at hs; simp [scalarData] at hs
    · exact ih i c hlt h2 h3
  | array s c' m e n ho hc body rest ihb ihr =>
    intro i c h1 h2 h3
    have hbe := forest_le body
    have hre := forest_le rest
    rcases Nat.eq_or_lt_of_le h1 with heq | hlt
    · subst heq
      have hcc : c = c' := by
        cases h3 with
        | inl ha => rw [ho] at ha; injection ha with hv; injection hv with hn; omega
        | inr hb => rw [ho] at hb; injection hb with hv; exact absurd hv (by simp)
      subst hcc
      refine ⟨by omega, by omega, fun _ => ⟨m, hc, body⟩, fun hob => ?_⟩
      rw [ho] at hob
      injection hob with hv
      exact absurd hv (by simp)
    · rcases Nat.lt_trichotomy i c' with hic | hic | hic
      · have hres := ihb i c (by omega) hic h3
        exact ⟨hres.1, by omega, hres.2.2.1, hres.2.2.2⟩
      · exfalso
        subst hic
        cases h3 with
        | inl ha => rw [hc] at ha; exact absurd ha (by simp)
        | inr hb => rw [hc] at hb; exact absurd hb (by simp)
      · exact ihr i c (by omega) h2 h3
  | object s c' m e n ho hc body rest ihb ihr =>
    intro i c h1 h2 h3
    have hbe := forest_le body
    have hre := forest_le rest
    rcases Nat.eq_or_lt_of_le h1 with heq | hlt
    · subst heq
      have hcc : c = c' := by
        cases h3 with
        | inl ha => rw [ho] at ha; injection ha with hv; exact absurd hv (by simp)
        | inr hb => rw [ho] at hb; injection hb with hv; injection hv with hn; omega
      subst hcc
      refine ⟨by omega, by omega, fun hoa => ?_, fun _ => ⟨m, hc, body⟩⟩
      rw [ho] at hoa
      injection hoa with hv
      exact absurd hv (by simp)
    · rcases Nat.lt_trichotomy i c' with hic | hic | hic
      · have hres := ihb i c (by omega) hic h3
        exact ⟨hres.1, by omega, hres.2.2.1, hres.2.2.2⟩
      · exfalso
        subst hic
        cases h3 with
        | inl ha => rw [hc] at ha; exact absurd ha (by simp)
        | inr hb => rw [hc] at hb; exact absurd hb (by simp)
      · exact ihr i c (by omega) h2 h3

theorem next_sibling_scalar {ts : List JsonToken} {s : Nat}
    (hs : scalarData (tokAt ts s).data = Bool.true) :
    next_sibling_index ts s = s + 1 := by
  unfold next_sibling_index
  cases hd : (tokAt ts s).data with
  | value v => cases v <;> simp [scalarData, hd] at hs ⊢
  | comma => rfl
  | colon => rfl
  | arrayClose k => rfl
  | objectClose k => rfl

theorem next_sibling_array {ts : List JsonToken} {s c : Nat}
    (ho : (tokAt ts s).data = .value (.arrayOpen c)) :
    next_sibling_index ts s = c + 1 := by
  unfold next_sibling_index
  rw [ho]

theorem next_sibling_object {ts : List JsonToken} {s c : Nat}
    (ho : (tokAt ts s).data = .value (.objectOpen c)) :
    next_sibling_index ts s = c + 1 := by
  unfold next_sibling_index
  rw [ho]

/-! ### Specifications of the leaf scanners -/

theorem get_null_token_ok {it : It} {start : Nat} {tok : JsonToken} {it₂ : It}
    (h : get_null_token it start = .ok (tok, it₂)) : tok = ⟨start, .value .null⟩ := by
  unfold get_null_token at h
  split at h
  · exact absurd h (by simp)
  · split at h
    · exact absurd h (by simp)
    · split at h
      · exact absurd h (by simp)
      · simp only [Except.ok.injEq, Prod.mk.injEq] at h
        exact h.1.symm

theorem get_true_token_ok {it : It} {start : Nat} {tok : JsonToken} {it₂ : It}
    (h : get_true_token it start = .ok (tok, it₂)) : tok = ⟨start, .value .true⟩ := by
  unfold get_true_token at h
  split at h
  · exact absurd h (by simp)
  · split at h
    · exact absurd h (by simp)
    · split at h
      · exact absurd h (by simp)
      · simp only [Except.ok.injEq, Prod.mk.injEq] at h
        exact h.1.symm

theorem get_false_token_ok {it : It} {start : Nat} {tok : JsonToken} {it₂ : It}
    (h : get_false_token it start = .ok (tok, it₂)) : tok = ⟨start, .value .false⟩ := by
  unfold get_false_token at h
  split at h
  · exact absurd h (by simp)
  · split at h
    · exact absurd h (by simp)
    · split at h
      · exact absurd h (by simp)
      · split at h
        · exact absurd h (by simp)
        · simp only [Except.ok.injEq, Prod.mk.injEq] at h
          exact h.1.symm

theorem get_number_token_ok {it : It} {start : Nat} {tok : JsonToken} {it₂ : It}
    (h : get_number_token it start = .ok (tok, it₂)) :
    ∃ len, tok = ⟨start, .value (.number len)⟩ := by
  unfold get_number_token at h
  dsimp only at h
  split at h
  all_goals try split at h
  all_goals try split at h
  all_goals try split at h
  all_goals (cases h <;> exact ⟨_, rfl⟩)

theorem get_string_token_ok : ∀ (it : It) (start : Nat) (tok : JsonToken) (it₂ : It),
    get_string_token it start = .ok (tok, it₂) →
    ∃ len, tok = ⟨start, .value (.string len)⟩ := by
  intro it
  induction it with
  | nil => intro start tok it₂ h; exact absurd h (by simp [get_string_token])
  | cons p rest ih =>
    intro start tok it₂ h
    obtain ⟨i, c⟩ := p
    unfold get_string_token at h
    split at h
    · simp only [Except.ok.injEq, Prod.mk.injEq] at h
      exact ⟨_, h.1.symm⟩
    · exact ih start tok it₂ h

/-! ### Helpers for prefix extension of the token vector -/

theorem ext_trans {a b c : List JsonToken} (h₁ : ∃ Δ, b = a ++ Δ) (h₂ : ∃ Δ, c = b ++ Δ) :
    ∃ Δ, c = a ++ Δ := by
  obtain ⟨Δ₁, rfl⟩ := h₁
  obtain ⟨Δ₂, rfl⟩ := h₂
  exact ⟨Δ₁ ++ Δ₂, by rw [List.append_assoc]⟩

theorem ext_of_extlast {a b : List JsonToken} (h : ∃ Δ last, b = a ++ Δ ++ [last]) :
    ∃ Δ, b = a ++ Δ := by
  obtain ⟨Δ, last, rfl⟩ := h
  exact ⟨Δ ++ [last], by rw [List.append_assoc]⟩

theorem set_keeps_prefix {l p : List JsonToken} {k : Nat} {x : JsonToken}
    (hpre : ∃ q, l = p ++ q) (hk : p.length ≤ k) : ∃ q, l.set k x = p ++ q := by
  obtain ⟨q, rfl⟩ := hpre
  obtain ⟨d, rfl⟩ : ∃ d, k = p.length + d := ⟨k - p.length, by omega⟩
  exact ⟨q.set d x, set_append_skip p q d x⟩

/-- A forest whose span ends at the vector's current length survives any
extension of the vector. -/
theorem forest_extend {ts ts₂ : List JsonToken} {n s : Nat} (h : Forest ts n s ts.length)
    (hext : ∃ Δ, ts₂ = ts ++ Δ) : Forest ts₂ n s ts.length := by
  obtain ⟨Δ, rfl⟩ := hext
  exact forest_append_toks h (Nat.le_refl _)

/-- Pushing a freshly scanned scalar token satisfies the `parse`
specification. -/
theorem PParse_push_value {ts : List JsonToken} {st : Nat} {v : JsonValue}
    (hs : scalarData (JsonTokenData.value v) = Bool.true) :
    PParse ts ⟨st, .value v⟩ (ts ++ [⟨st, .value v⟩]) := by
  have hAt : tokAt (ts ++ [(⟨st, .value v⟩ : JsonToken)]) ts.length = ⟨st, .value v⟩ :=
    tokAt_append_at ts _ []
  have hforest : Forest (ts ++ [(⟨st, .value v⟩ : JsonToken)]) 1 ts.length (ts.length + 1) :=
    Forest.scalar _ _ 0 (by rw [hAt]; exact hs) (Forest.nil _)
  show (∃ Δ, ts ++ [(⟨st, .value v⟩ : JsonToken)] = ts ++ Δ) ∧ _ ∧ _
  refine ⟨⟨[⟨st, .value v⟩], rfl⟩, ?_, by simp⟩
  have hlen : (ts ++ [(⟨st, .value v⟩ : JsonToken)]).length = ts.length + 1 := by simp
  rw [hlen]
  exact hforest

/-- Back-patching an array: given the array-body specification for
`get_array_token`, the `'['` arm of `parse` satisfies the `parse`
specification. -/
theorem PParse_patch_array {ts ts₂ : List JsonToken} {i item_count : Nat}
    (hcount : PCount 1 (ts ++ [⟨i, .value (.arrayOpen (ts.length + 1))⟩]) item_count ts₂) :
    PParse ts ⟨i, .value (.arrayOpen (ts₂.length - 1))⟩
      ((ts₂.set ts.length ⟨i, .value (.arrayOpen (ts₂.length - 1))⟩).set (ts₂.length - 1)
        ⟨(tokAt (ts₂.set ts.length ⟨i, .value (.arrayOpen (ts₂.length - 1))⟩)
            (ts₂.length - 1)).start, .arrayClose item_count⟩) := by
  obtain ⟨hext, hforest⟩ := hcount
  rw [one_mul] at hforest
  have hlen1 : (ts ++ [(⟨i, .value (.arrayOpen (ts.length + 1))⟩ : JsonToken)]).length
      = ts.length + 1 := by simp
  rw [hlen1] at hforest
  obtain ⟨Δ, last, hext'⟩ := hext
  have hlen2 : ts₂.length = ts.length + Δ.length + 2 := by
    rw [hext']
    simp
    omega
  have hforest' : Forest ts₂ item_count (ts.length + 1) (ts₂.length - 1) := hforest
  have hLlt : ts.length < ts₂.length := by omega
  have hclt : ts₂.length - 1 < ts₂.length := by omega
  have hne : ts₂.length - 1 ≠ ts.length := by omega
  have e₀ : ∃ q, ts₂ = ts ++ q :=
    ⟨[⟨i, .value (.arrayOpen (ts.length + 1))⟩] ++ Δ ++ [last], by
      rw [hext']
      simp [List.append_assoc]⟩
  have e₁ : ∃ q, ts₂.set ts.length (⟨i, .value (.arrayOpen (ts₂.length - 1))⟩ : JsonToken)
      = ts ++ q := set_keeps_prefix e₀ (Nat.le_refl _)
  have e₂ : ∃ q, (ts₂.set ts.length
        (⟨i, .value (.arrayOpen (ts₂.length - 1))⟩ : JsonToken)).set (ts₂.length - 1)
        ⟨(tokAt (ts₂.set ts.length ⟨i, .value (.arrayOpen (ts₂.length - 1))⟩)
            (ts₂.length - 1)).start, .arrayClose item_count⟩ = ts ++ q :=
    set_keeps_prefix e₁ (by omega)
  have hlen4 : ((ts₂.set ts.length
        (⟨i, .value (.arrayOpen (ts₂.length - 1))⟩ : JsonToken)).set (ts₂.length - 1)
        ⟨(tokAt (ts₂.set ts.length ⟨i, .value (.arrayOpen (ts₂.length - 1))⟩)
            (ts₂.length - 1)).start, .arrayClose item_count⟩).length = ts₂.length := by
    simp
  have htokAtL : tokAt ((ts₂.set ts.length
        (⟨i, .value (.arrayOpen (ts₂.length - 1))⟩ : JsonToken)).set (ts₂.length - 1)
        ⟨(tokAt (ts₂.set ts.length ⟨i, .value (.arrayOpen (ts₂.length - 1))⟩)
            (ts₂.length - 1)).start, .arrayClose item_count⟩) ts.length
      = ⟨i, .value (.arrayOpen (ts₂.length - 1))⟩ := by
    rw [tokAt_set_ne _ _ _ _ hne, tokAt_set_self _ _ _ hLlt]
  have htokAtC : tokAt ((ts₂.set ts.length
        (⟨i, .value (.arrayOpen (ts₂.length - 1))⟩ : JsonToken)).set (ts₂.length - 1)
        ⟨(tokAt (ts₂.set ts.length ⟨i, .value (.arrayOpen (ts₂.length - 1))⟩)
            (ts₂.length - 1)).start, .arrayClose item_count⟩) (ts₂.length - 1)
      = ⟨(tokAt (ts₂.set ts.length ⟨i, .value (.arrayOpen (ts₂.length - 1))⟩)
            (ts₂.length - 1)).start, .arrayClose item_count⟩ :=
    tokAt_set_self _ _ _ (by simpa using hclt)
  have hbody : Forest ((ts₂.set ts.length
        (⟨i, .value (.arrayOpen (ts₂.length - 1))⟩ : JsonToken)).set (ts₂.length - 1)
        ⟨(tokAt (ts₂.set ts.length ⟨i, .value (.arrayOpen (ts₂.length - 1))⟩)
            (ts₂.length - 1)).start, .arrayClose item_count⟩) item_count
      (ts.length + 1) (ts₂.length - 1) := by
    refine forest_congr hforest' fun j hj1 hj2 => ?_
    rw [tokAt_set_ne _ _ _ _ (by omega), tokAt_set_ne _ _ _ _ (by omega)]
  have hfin : Forest ((ts₂.set ts.length
        (⟨i, .value (.arrayOpen (ts₂.length - 1))⟩ : JsonToken)).set (ts₂.length - 1)
        ⟨(tokAt (ts₂.set ts.length ⟨i, .value (.arrayOpen (ts₂.length - 1))⟩)
            (ts₂.length - 1)).start, .arrayClose item_count⟩) 1
      ts.length ((ts₂.length - 1) + 1) :=
    Forest.array ts.length (ts₂.length - 1) item_count ((ts₂.length - 1) + 1) 0
      (by rw [htokAtL]) (by rw [htokAtC]) hbody (Forest.nil _)
  show (∃ Δ', _ = ts ++ Δ') ∧ _ ∧ _
  refine ⟨e₂, ?_, by rw [hlen4]; omega⟩
  rw [hlen4]
  have harith : ts₂.length - 1 + 1 = ts₂.length := by omega
  rw [harith] at hfin
  exact hfin

/-- Back-patching an object: mirror of `PParse_patch_array`. -/
theorem PParse_patch_object {ts ts₂ : List JsonToken} {i item_count : Nat}
    (hcount : PCount 2 (ts ++ [⟨i, .value (.objectOpen (ts.length + 1))⟩]) item_count ts₂) :
    PParse ts ⟨i, .value (.objectOpen (ts₂.length - 1))⟩
      ((ts₂.set ts.length ⟨i, .value (.objectOpen (ts₂.length - 1))⟩).set (ts₂.length - 1)
        ⟨(tokAt (ts₂.set ts.length ⟨i, .value (.objectOpen (ts₂.length - 1))⟩)
            (ts₂.length - 1)).start, .objectClose item_count⟩) := by
  obtain ⟨hext, hforest⟩ := hcount
  have hlen1 : (ts ++ [(⟨i, .value (.objectOpen (ts.length + 1))⟩ : JsonToken)]).length
      = ts.length + 1 := by simp
  rw [hlen1] at hforest
  obtain ⟨Δ, last, hext'⟩ := hext
  have hlen2 : ts₂.length = ts.length + Δ.length + 2 := by
    rw [hext']
    simp
    omega
  have hforest' : Forest ts₂ (2 * item_count) (ts.length + 1) (ts₂.length - 1) := hforest
  have hLlt : ts.length < ts₂.length := by omega
  have hclt : ts₂.length - 1 < ts₂.length := by omega
  have hne : ts₂.length - 1 ≠ ts.length := by omega
  have e₀ : ∃ q, ts₂ = ts ++ q :=
    ⟨[⟨i, .value (.objectOpen (ts.length + 1))⟩] ++ Δ ++ [last], by
      rw [hext']
      simp [List.append_assoc]⟩
  have e₁ : ∃ q, ts₂.set ts.length (⟨i, .value (.objectOpen (ts₂.length - 1))⟩ : JsonToken)
      = ts ++ q := set_keeps_prefix e₀ (Nat.le_refl _)
  have e₂ : ∃ q, (ts₂.set ts.length
        (⟨i, .value (.objectOpen (ts₂.length - 1))⟩ : JsonToken)).set (ts₂.length - 1)
        ⟨(tokAt (ts₂.set ts.length ⟨i, .value (.objectOpen (ts₂.length - 1))⟩)
            (ts₂.length - 1)).start, .objectClose item_count⟩ = ts ++ q :=
    set_keeps_prefix e₁ (by omega)
  have hlen4 : ((ts₂.set ts.length
        (⟨i, .value (.objectOpen (ts₂.length - 1))⟩ : JsonToken)).set (ts₂.length - 1)
        ⟨(tokAt (ts₂.set ts.length ⟨i, .value (.objectOpen (ts₂.length - 1))⟩)
            (ts₂.length - 1)).start, .objectClose item_count⟩).length = ts₂.length := by
    simp
  have htokAtL : tokAt ((ts₂.set ts.length
        (⟨i, .value (.objectOpen (ts₂.length - 1))⟩ : JsonToken)).set (ts₂.length - 1)
        ⟨(tokAt (ts₂.set ts.length ⟨i, .value (.objectOpen (ts₂.length - 1))⟩)
            (ts₂.length - 1)).start, .objectClose item_count⟩) ts.length
      = ⟨i, .value (.objectOpen (ts₂.length - 1))⟩ := by
    rw [tokAt_set_ne _ _ _ _ hne, tokAt_set_self _ _ _ hLlt]
  have htokAtC : tokAt ((ts₂.set ts.length
        (⟨i, .value (.objectOpen (ts₂.length - 1))⟩ : JsonToken)).set (ts₂.length - 1)
        ⟨(tokAt (ts₂.set ts.length ⟨i, .value (.objectOpen (ts₂.length - 1))⟩)
            (ts₂.length - 1)).start, .objectClose item_count⟩) (ts₂.length - 1)
      = ⟨(tokAt (ts₂.set ts.length ⟨i, .value (.objectOpen (ts₂.length - 1))⟩)
            (ts₂.length - 1)).start, .objectClose item_count⟩ :=
    tokAt_set_self _ _ _ (by simpa using hclt)
  have hbody : Forest ((ts₂.set ts.length
        (⟨i, .value (.objectOpen (ts₂.length - 1))⟩ : JsonToken)).set (ts₂.length - 1)
        ⟨(tokAt (ts₂.set ts.length ⟨i, .value (.objectOpen (ts₂.length - 1))⟩)
            (ts₂.length - 1)).start, .objectClose item_count⟩) (2 * item_count)
      (ts.length + 1) (ts₂.length - 1) := by
    refine forest_congr hforest' fun j hj1 hj2 => ?_
    rw [tokAt_set_ne _ _ _ _ (by omega), tokAt_set_ne _ _ _ _ (by omega)]
  have hfin : Forest ((ts₂.set ts.length
        (⟨i, .value (.objectOpen (ts₂.length - 1))⟩ : JsonToken)).set (ts₂.length - 1)
        ⟨(tokAt (ts₂.set ts.length ⟨i, .value (.objectOpen (ts₂.length - 1))⟩)
            (ts₂.length - 1)).start, .objectClose item_count⟩) 1
      ts.length ((ts₂.length - 1) + 1) :=
    Forest.object ts.length (ts₂.length - 1) item_count ((ts₂.length - 1) + 1) 0
      (by rw [htokAtL]) (by rw [htokAtC]) hbody (Forest.nil _)
  show (∃ Δ', _ = ts ++ Δ') ∧ _ ∧ _
  refine ⟨e₂, ?_, by rw [hlen4]; omega⟩
  rw [hlen4]
  have harith : ts₂.length - 1 + 1 = ts₂.length := by omega
  rw [harith] at hfin
  exact hfin

/-- Unpacking a successful `parseScalar`. -/
theorem parseScalar_ok {res : Except ParseError (JsonToken × It)} {ts : List JsonToken}
    {tok : JsonToken} {it₂ : It} {ts₂ : List JsonToken}
    (h : parseScalar res ts = .ok (tok, it₂, ts₂)) :
    (∃ it', res = .ok (tok, it')) ∧ ts₂ = ts ++ [tok] := by
  unfold parseScalar at h
  split at h
  · cases h
  · cases h
    exact ⟨⟨_, rfl⟩, rfl⟩

/-- A successful `parseOpenArray` satisfies the `parse` specification,
given the array-body specification for the inner scan. -/
theorem parseOpenArray_ok {F : StepFns}
    (harr : ∀ it ts cnt it₂ ts₂, F.arr it ts = .ok (cnt, it₂, ts₂) → PCount 1 ts cnt ts₂)
    {i : Nat} {it₁ : It} {ts : List JsonToken} {tok : JsonToken} {it₂ : It}
    {ts₂ : List JsonToken} (h : parseOpenArray F i it₁ ts = .ok (tok, it₂, ts₂)) :
    PParse ts tok ts₂ := by
  unfold parseOpenArray at h
  split at h
  · cases h
  · rename_i item_count itX tsX heq
    dsimp only at h
    cases h
    exact PParse_patch_array (harr _ _ _ _ _ heq)

/-- A successful `parseOpenObject` satisfies the `parse` specification. -/
theorem parseOpenObject_ok {F : StepFns}
    (hobj : ∀ it ts cnt it₂ ts₂, F.obj it ts = .ok (cnt, it₂, ts₂) → PCount 2 ts cnt ts₂)
    {i : Nat} {it₁ : It} {ts : List JsonToken} {tok : JsonToken} {it₂ : It}
    {ts₂ : List JsonToken} (h : parseOpenObject F i it₁ ts = .ok (tok, it₂, ts₂)) :
    PParse ts tok ts₂ := by
  unfold parseOpenObject at h
  split at h
  · cases h
  · rename_i item_count itX tsX heq
    dsimp only at h
    cases h
    exact PParse_patch_object (hobj _ _ _ _ _ heq)

/-- The structural-character dispatch satisfies the `parse`
specification. -/
theorem parseCharStruct_ok {F : StepFns} (hF : FnsOk F) :
    ∀ i c it₁ ts tok it₂ ts₂, parseCharStruct F i c it₁ ts = .ok (tok, it₂, ts₂) →
      PParse ts tok ts₂ := by
  intro i c it₁ ts tok it₂ ts₂ h
  unfold parseCharStruct at h
  split at h
  · cases h
    exact rfl
  · split at h
    · exact parseOpenArray_ok hF.2.1 h
    · split at h
      · cases h
        exact rfl
      · split at h
        · cases h
          exact rfl
        · split at h
          · exact parseOpenObject_ok hF.2.2.2.2.1 h
          · split at h
            · cases h
              exact rfl
            · cases h

/-- The character dispatch satisfies the `parse` specification. -/
theorem parseChar_ok {F : StepFns} (hF : FnsOk F) :
    ∀ i c it₁ ts tok it₂ ts₂, parseChar F i c it₁ ts = .ok (tok, it₂, ts₂) →
      PParse ts tok ts₂ := by
  intro i c it₁ ts tok it₂ ts₂ h
  unfold parseChar at h
  split at h
  · obtain ⟨⟨it', heq⟩, rfl⟩ := parseScalar_ok h
    obtain rfl := get_null_token_ok heq
    exact PParse_push_value rfl
  · split at h
    · obtain ⟨⟨it', heq⟩, rfl⟩ := parseScalar_ok h
      obtain rfl := get_true_token_ok heq
      exact PParse_push_value rfl
    · split at h
      · obtain ⟨⟨it', heq⟩, rfl⟩ := parseScalar_ok h
        obtain rfl := get_false_token_ok heq
        exact PParse_push_value rfl
      · split at h
        · obtain ⟨⟨it', heq⟩, rfl⟩ := parseScalar_ok h
          obtain ⟨len, rfl⟩ := get_number_token_ok heq
          exact PParse_push_value rfl
        · split at h
          · obtain ⟨⟨it', heq⟩, rfl⟩ := parseScalar_ok h
            obtain ⟨len, rfl⟩ := get_string_token_ok _ _ _ _ heq
            exact PParse_push_value rfl
          · exact parseCharStruct_ok hF _ _ _ _ _ _ _ h

/-- One fuel level of `parse` satisfies the `parse` specification,
assuming the next-lower level satisfies all six specifications. -/
theorem parseStep_ok {F : StepFns} (hF : FnsOk F) :
    ∀ it ts tok it₂ ts₂, parseStep F it ts = .ok (tok, it₂, ts₂) → PParse ts tok ts₂ := by
  intro it ts tok it₂ ts₂ h
  cases it with
  | nil => exact Except.noConfusion h
  | cons p it₁ =>
    obtain ⟨i, c⟩ := p
    rw [parseStep.eq_2] at h
    split at h
    · exact hF.1 _ _ _ _ _ h
    · exact parseChar_ok hF _ _ _ _ _ _ _ h

/-- One fuel level of `get_array_token` satisfies its specification. -/
theorem arrStep_ok {F : StepFns} (hF : FnsOk F) :
    ∀ it ts cnt it₂ ts₂, arrStep F it ts = .ok (cnt, it₂, ts₂) → PCount 1 ts cnt ts₂ := by
  intro it ts cnt it₂ ts₂ h
  unfold arrStep at h
  cases hres : F.parse it ts with
  | error e => rw [hres] at h; cases h
  | ok r =>
    obtain ⟨tok, it₁, ts₁⟩ := r
    rw [hres] at h
    dsimp only at h
    have hp := hF.1 _ _ _ _ _ hres
    cases hd : tok.data with
    | arrayClose n =>
      rw [hd] at h
      cases h
      unfold PParse at hp
      rw [hd] at hp
      subst hp
      refine ⟨⟨[], tok, by simp⟩, ?_⟩
      simpa using Forest.nil ts.length
    | objectClose n => rw [hd] at h; cases h
    | comma => rw [hd] at h; cases h
    | colon => rw [hd] at h; cases h
    | value v =>
      rw [hd] at h
      dsimp only at h
      have hl := hF.2.2.1 _ _ _ _ _ _ h
      unfold PParse at hp
      rw [hd] at hp
      obtain ⟨hext₀, hf₀, hlt₀⟩ := hp
      obtain ⟨k, rfl, hextL, hfL⟩ := hl
      refine ⟨?_, ?_⟩
      · obtain ⟨Δ₀, hΔ₀⟩ := hext₀
        obtain ⟨Δ₁, last, hΔ₁⟩ := hextL
        exact ⟨Δ₀ ++ Δ₁, last, by rw [hΔ₁, hΔ₀]; simp [List.append_assoc]⟩
      · have hf₀' := forest_extend hf₀ (ext_of_extlast hextL)
        have hcomb := forest_append hf₀' hfL
        have harith : 1 * (1 + k) = 1 + 1 * k := by omega
        rw [harith]
        exact hcomb

/-- One fuel level of the array loop satisfies its specification. -/
theorem arrLoopStep_ok {F : StepFns} (hF : FnsOk F) :
    ∀ count it ts cnt₂ it₂ ts₂, arrLoopStep F count it ts = .ok (cnt₂, it₂, ts₂) →
      PLoopC 1 ts count cnt₂ ts₂ := by
  intro count it ts cnt₂ it₂ ts₂ h
  unfold arrLoopStep at h
  cases hres : F.parse it ts with
  | error e => rw [hres] at h; cases h
  | ok r =>
    obtain ⟨tok, it₁, ts₁⟩ := r
    rw [hres] at h
    dsimp only at h
    have hp := hF.1 _ _ _ _ _ hres
    cases hd : tok.data with
    | arrayClose n =>
      rw [hd] at h
      cases h
      unfold PParse at hp
      rw [hd] at hp
      subst hp
      exact ⟨0, by omega, ⟨[], tok, by simp⟩, by simpa using Forest.nil ts.length⟩
    | objectClose n => rw [hd] at h; cases h
    | value v => rw [hd] at h; cases h
    | colon => rw [hd] at h; cases h
    | comma =>
      rw [hd] at h
      dsimp only at h
      unfold PParse at hp
      rw [hd] at hp
      subst hp
      split at h
      · cases hres₂ : F.parse it₁ ts₁ with
        | error e => rw [hres₂] at h; cases h
        | ok r₂ =>
          obtain ⟨tok₂, itB, tsB⟩ := r₂
          rw [hres₂] at h
          dsimp only at h
          have hp₂ := hF.1 _ _ _ _ _ hres₂
          cases hd₂ : tok₂.data with
          | value v₂ =>
            rw [hd₂] at h
            dsimp only at h
            have hl := hF.2.2.1 _ _ _ _ _ _ h
            unfold PParse at hp₂
            rw [hd₂] at hp₂
            obtain ⟨hext₀, hf₀, hlt₀⟩ := hp₂
            obtain ⟨k, rfl, hextL, hfL⟩ := hl
            refine ⟨k + 1, by omega, ?_, ?_⟩
            · obtain ⟨Δ₀, hΔ₀⟩ := hext₀
              obtain ⟨Δ₁, last, hΔ₁⟩ := hextL
              exact ⟨Δ₀ ++ Δ₁, last, by rw [hΔ₁, hΔ₀]; simp [List.append_assoc]⟩
            · have hf₀' := forest_extend hf₀ (ext_of_extlast hextL)
              have hcomb := forest_append hf₀' hfL
              have harith : 1 * (k + 1) = 1 + 1 * k := by omega
              rw [harith]
              exact hcomb
          | arrayClose n₂ => rw [hd₂] at h; cases h
          | objectClose n₂ => rw [hd₂] at h; cases h
          | comma => rw [hd₂] at h; cases h
          | colon => rw [hd₂] at h; cases h
      · cases h

/-- One fuel level of `colon_value` satisfies its specification. -/
theorem cvStep_ok {F : StepFns} (hF : FnsOk F) :
    ∀ it ts tok it₂ ts₂, cvStep F it ts = .ok (tok, it₂, ts₂) → PCV ts ts₂ := by
  intro it ts tok it₂ ts₂ h
  unfold cvStep at h
  cases hres : F.parse it ts with
  | error e => rw [hres] at h; cases h
  | ok r =>
    obtain ⟨tok₁, it₁, ts₁⟩ := r
    rw [hres] at h
    dsimp only at h
    have hp := hF.1 _ _ _ _ _ hres
    cases hd : tok₁.data with
    | arrayClose n => rw [hd] at h; cases h
    | objectClose n => rw [hd] at h; cases h
    | value v => rw [hd] at h; cases h
    | comma => rw [hd] at h; cases h
    | colon =>
      rw [hd] at h
      dsimp only at h
      unfold PParse at hp
      rw [hd] at hp
      subst hp
      cases hres₂ : F.parse it₁ ts₁ with
      | error e => rw [hres₂] at h; cases h
      | ok r₂ =>
        obtain ⟨tok₂, itB, tsB⟩ := r₂
        rw [hres₂] at h
        dsimp only at h
        have hp₂ := hF.1 _ _ _ _ _ hres₂
        cases hd₂ : tok₂.data with
        | value v₂ =>
          rw [hd₂] at h
          cases h
          unfold PParse at hp₂
          rw [hd₂] at hp₂
          exact hp₂
        | arrayClose n₂ => rw [hd₂] at h; cases h
        | objectClose n₂ => rw [hd₂] at h; cases h
        | comma => rw [hd₂] at h; cases h
        | colon => rw [hd₂] at h; cases h

/-- One fuel level of `get_object_token` satisfies its specification. -/
theorem objStep_ok {F : StepFns} (hF : FnsOk F) :
    ∀ it ts cnt it₂ ts₂, objStep F it ts = .ok (cnt, it₂, ts₂) → PCount 2 ts cnt ts₂ := by
  intro it ts cnt it₂ ts₂ h
  unfold objStep at h
  cases hres : F.parse it ts with
  | error e => rw [hres] at h; cases h
  | ok r =>
    obtain ⟨tok, it₁, ts₁⟩ := r
    rw [hres] at h
    dsimp only at h
    have hp := hF.1 _ _ _ _ _ hres
    cases hd : tok.data with
    | objectClose n =>
      rw [hd] at h
      cases h
      unfold PParse at hp
      rw [hd] at hp
      subst hp
      refine ⟨⟨[], tok, by simp⟩, ?_⟩
      simpa using Forest.nil ts.length
    | arrayClose n => rw [hd] at h; cases h
    | comma => rw [hd] at h; cases h
    | colon => rw [hd] at h; cases h
    | value v =>
      rw [hd] at h
      dsimp only at h
      cases hcv : F.cv it₁ ts₁ with
      | error e => rw [hcv] at h; cases h
      | ok rc =>
        obtain ⟨tokc, itc, tsc⟩ := rc
        rw [hcv] at h
        dsimp only at h
        have hcvs := hF.2.2.2.1 _ _ _ _ _ hcv
        have hl := hF.2.2.2.2.2 _ _ _ _ _ _ h
        unfold PParse at hp
        rw [hd] at hp
        obtain ⟨hext₀, hf₀, hlt₀⟩ := hp
        obtain ⟨hext₁, hf₁, hlt₁⟩ := hcvs
        obtain ⟨k, rfl, hextL, hfL⟩ := hl
        refine ⟨?_, ?_⟩
        · obtain ⟨Δ₀, hΔ₀⟩ := hext₀
          obtain ⟨Δ₁, hΔ₁⟩ := hext₁
          obtain ⟨Δ₂, last, hΔ₂⟩ := hextL
          exact ⟨Δ₀ ++ Δ₁ ++ Δ₂, last, by rw [hΔ₂, hΔ₁, hΔ₀]; simp [List.append_assoc]⟩
        · have hf₀' := forest_extend hf₀ (ext_trans hext₁ (ext_of_extlast hextL))
          have hf₁' := forest_extend hf₁ (ext_of_extlast hextL)
          have hcomb := forest_append hf₀' (forest_append hf₁' hfL)
          have harith : 2 * (1 + k) = 1 + (1 + 2 * k) := by omega
          rw [harith]
          exact hcomb

/-- One fuel level of the object loop satisfies its specification. -/
theorem objLoopStep_ok {F : StepFns} (hF : FnsOk F) :
    ∀ count it ts cnt₂ it₂ ts₂, objLoopStep F count it ts = .ok (cnt₂, it₂, ts₂) →
      PLoopC 2 ts count cnt₂ ts₂ := by
  intro count it ts cnt₂ it₂ ts₂ h
  unfold objLoopStep at h
  cases hres : F.parse it ts with
  | error e => rw [hres] at h; cases h
  | ok r =>
    obtain ⟨tok, it₁, ts₁⟩ := r
    rw [hres] at h
    dsimp only at h
    have hp := hF.1 _ _ _ _ _ hres
    cases hd : tok.data with
    | objectClose n =>
      rw [hd] at h
      cases h
      unfold PParse at hp
      rw [hd] at hp
      subst hp
      exact ⟨0, by omega, ⟨[], tok, by simp⟩, by simpa using Forest.nil ts.length⟩
    | arrayClose n => rw [hd] at h; cases h
    | value v => rw [hd] at h; cases h
    | colon => rw [hd] at h; cases h
    | comma =>
      rw [hd] at h
      dsimp only at h
      unfold PParse at hp
      rw [hd] at hp
      subst hp
      cases hres₂ : F.parse it₁ ts₁ with
      | error e => rw [hres₂] at h; cases h
      | ok r₂ =>
        obtain ⟨tok₂, itB, tsB⟩ := r₂
        rw [hres₂] at h
        dsimp only at h
        have hp₂ := hF.1 _ _ _ _ _ hres₂
        cases hd₂ : tok₂.data with
        | value v₂ =>
          rw [hd₂] at h
          dsimp only at h
          cases hcv : F.cv itB tsB with
          | error e => rw [hcv] at h; cases h
          | ok rc =>
            obtain ⟨tokc, itc, tsc⟩ := rc
            rw [hcv] at h
            dsimp only at h
            have hcvs := hF.2.2.2.1 _ _ _ _ _ hcv
            have hl := hF.2.2.2.2.2 _ _ _ _ _ _ h
            unfold PParse at hp₂
            rw [hd₂] at hp₂
            obtain ⟨hext₀, hf₀, hlt₀⟩ := hp₂
            obtain ⟨hext₁, hf₁, hlt₁⟩ := hcvs
            obtain ⟨k, rfl, hextL, hfL⟩ := hl
            refine ⟨k + 1, by omega, ?_, ?_⟩
            · obtain ⟨Δ₀, hΔ₀⟩ := hext₀
              obtain ⟨Δ₁, hΔ₁⟩ := hext₁
              obtain ⟨Δ₂, last, hΔ₂⟩ := hextL
              exact ⟨Δ₀ ++ Δ₁ ++ Δ₂, last, by rw [hΔ₂, hΔ₁, hΔ₀]; simp [List.append_assoc]⟩
            · have hf₀' := forest_extend hf₀ (ext_trans hext₁ (ext_of_extlast hextL))
              have hf₁' := forest_extend hf₁ (ext_of_extlast hextL)
              have hcomb := forest_append hf₀' (forest_append hf₁' hfL)
              have harith : 2 * (k + 1) = 1 + (1 + 2 * k) := by omega
              rw [harith]
              exact hcomb
        | arrayClose n₂ => rw [hd₂] at h; cases h
        | objectClose n₂ => rw [hd₂] at h; cases h
        | comma => rw [hd₂] at h; cases h
        | colon => rw [hd₂] at h; cases h

/-- Stepping preserves the bundle specification. -/
theorem stepFns_ok {F : StepFns} (hF : FnsOk F) :
    FnsOk ⟨parseStep F, arrStep F, arrLoopStep F, cvStep F, objStep F, objLoopStep F⟩ :=
  ⟨parseStep_ok hF, arrStep_ok hF, arrLoopStep_ok hF, cvStep_ok hF, objStep_ok hF,
   objLoopStep_ok hF⟩

/-- The base bundle never succeeds, so it satisfies every specification. -/
theorem errFns_ok : FnsOk errFns :=
  ⟨fun _ _ _ _ _ h => Except.noConfusion h, fun _ _ _ _ _ h => Except.noConfusion h,
   fun _ _ _ _ _ _ h => Except.noConfusion h, fun _ _ _ _ _ h => Except.noConfusion h,
   fun _ _ _ _ _ h => Except.noConfusion h, fun _ _ _ _ _ _ h => Except.noConfusion h⟩

/-- The scanner satisfies its specification at every fuel level. -/
theorem PAll_ok : ∀ fuel, FnsOk (PAll fuel)
  | 0 => errFns_ok
  | fuel + 1 => stepFns_ok (PAll_ok fuel)

/-- Walking `next_sibling_index` across an `n`-tree forest lands exactly
on the forest's right edge, with every intermediate stop strictly
inside. -/
theorem forest_iterate {ts : List JsonToken} {n s e : Nat} (h : Forest ts n s e) :
    iterate_sibling ts n s = e ∧ ∀ k, k < n → iterate_sibling ts k s < e := by
  induction h with
  | nil s => exact ⟨rfl, fun k hk => absurd hk (by omega)⟩
  | scalar s e n hs rest ih =>
    obtain ⟨ih1, ih2⟩ := ih
    have hnext := next_sibling_scalar hs
    have hse := forest_le rest
    constructor
    · show iterate_sibling ts n (next_sibling_index ts s) = e
      rw [hnext]
      exact ih1
    · intro k hk
      cases k with
      | zero => show s < e; omega
      | succ k' =>
        show iterate_sibling ts k' (next_sibling_index ts s) < e
        rw [hnext]
        exact ih2 k' (by omega)
  | array s c m e n ho hc body rest ihb ihr =>
    obtain ⟨ih1, ih2⟩ := ihr
    have hnext := next_sibling_array ho
    have hsc := forest_le body
    have hce := forest_le rest
    constructor
    · show iterate_sibling ts n (next_sibling_index ts s) = e
      rw [hnext]
      exact ih1
    · intro k hk
      cases k with
      | zero => show s < e; omega
      | succ k' =>
        show iterate_sibling ts k' (next_sibling_index ts s) < e
        rw [hnext]
        exact ih2 k' (by omega)
  | object s c m e n ho hc body rest ihb ihr =>
    obtain ⟨ih1, ih2⟩ := ihr
    have hnext := next_sibling_object ho
    have hsc := forest_le body
    have hce := forest_le rest
    constructor
    · show iterate_sibling ts n (next_sibling_index ts s) = e
      rw [hnext]
      exact ih1
    · intro k hk
      cases k with
      | zero => show s < e; omega
      | succ k' =>
        show iterate_sibling ts k' (next_sibling_index ts s) < e
        rw [hnext]
        exact ih2 k' (by omega)

/-- Shape of a successful tokenization: the root token is punctuation
(nothing pushed), a bare close token (pushed alone), or a value whose
tree spans the whole token vector. -/
theorem process_spec {src : List Char} {ts : List JsonToken} (h : process src = .ok ts) :
    ts = [] ∨ (∃ t n, ts = [t] ∧ (t.data = .arrayClose n ∨ t.data = .objectClose n)) ∨
      Forest ts 1 0 ts.length := by
  unfold process at h
  cases hres : parse (fuelFor src) (charIndices src) [] with
  | error e => rw [hres] at h; cases h
  | ok r =>
    obtain ⟨tok, it₂, ts'⟩ := r
    rw [hres] at h
    cases h
    have hp := (PAll_ok (fuelFor src)).1 _ _ _ _ _ hres
    unfold PParse at hp
    cases hd : tok.data with
    | comma => rw [hd] at hp; exact .inl hp
    | colon => rw [hd] at hp; exact .inl hp
    | arrayClose n =>
      rw [hd] at hp
      exact .inr (.inl ⟨tok, n, by simpa using hp, .inl hd⟩)
    | objectClose n =>
      rw [hd] at hp
      exact .inr (.inl ⟨tok, n, by simpa using hp, .inr hd⟩)
    | value v =>
      rw [hd] at hp
      exact .inr (.inr (by simpa using hp.2.1))

/-- Every open token of a successful tokenization has its matching close
at the recorded index, with the body forest spanning exactly the open
interval between them. -/
theorem tokens_open_spec {src : List Char} {ts : List JsonToken}
    (h : process src = .ok ts) {i c : Nat} (ho : openAt ts i c) :
    i < c ∧ c < ts.length ∧
    ((tokAt ts i).data = .value (.arrayOpen c) →
      ∃ m, (tokAt ts c).data = .arrayClose m ∧ Forest ts m (i + 1) c) ∧
    ((tokAt ts i).data = .value (.objectOpen c) →
      ∃ m, (tokAt ts c).data = .objectClose m ∧ Forest ts (2 * m) (i + 1) c) := by
  have hi : i < ts.length := by
    by_contra hge
    have hde := tokAt_oob ts i (by omega)
    cases ho with
    | inl ha => rw [hde] at ha; exact absurd ha (by simp [defaultToken])
    | inr hb => rw [hde] at hb; exact absurd hb (by simp [defaultToken])
  rcases process_spec h with rfl | ⟨t, n, rfl, hcl⟩ | hf
  · simp at hi
  · have h0 : i = 0 := by
      simp at hi
      exact hi
    subst h0
    have ht : tokAt [t] 0 = t := rfl
    exfalso
    cases hcl with
    | inl ha =>
      cases ho with
      | inl hx => rw [ht, ha] at hx; exact absurd hx (by simp)
      | inr hx => rw [ht, ha] at hx; exact absurd hx (by simp)
    | inr hb =>
      cases ho with
      | inl hx => rw [ht, hb] at hx; exact absurd hx (by simp)
      | inr hx => rw [ht, hb] at hx; exact absurd hx (by simp)
  · have hres := forest_open hf i c (Nat.zero_le i) hi ho
    exact ⟨hres.1, hres.2.1, hres.2.2.1, hres.2.2.2⟩

/-- C1: after a successful tokenization, every open-container token at
index `i` with recorded close index `c` satisfies `c > i`; the token at
`c` is the matching close kind (array-open pairs only with array-close,
object-open only with object-close); and every open token strictly
inside `(i, c)` has its own close strictly inside `(i, c)` — containers
nest without overlap. -/
theorem C1_nesting : ∀ (src : List Char) (ts : List JsonToken), process src = .ok ts →
    ∀ i c, openAt ts i c →
      i < c ∧ c < ts.length ∧
      ((tokAt ts i).data = .value (.arrayOpen c) → ∃ n, (tokAt ts c).data = .arrayClose n) ∧
      ((tokAt ts i).data = .value (.objectOpen c) → ∃ n, (tokAt ts c).data = .objectClose n) ∧
      (∀ j d, openAt ts j d → i < j → j < c → j < d ∧ d < c) := by
  intro src ts h i c ho
  obtain ⟨h1, h2, h3, h4⟩ := tokens_open_spec h ho
  refine ⟨h1, h2, fun ha => (h3 ha).elim fun m hm => ⟨m, hm.1⟩,
    fun hb => (h4 hb).elim fun m hm => ⟨m, hm.1⟩, ?_⟩
  intro j d hod hij hjc
  cases ho with
  | inl ha =>
    obtain ⟨m, hcm, hbody⟩ := h3 ha
    have hres := forest_open hbody j d (by omega) hjc hod
    exact ⟨hres.1, hres.2.1⟩
  | inr hb =>
    obtain ⟨m, hcm, hbody⟩ := h4 hb
    have hres := forest_open hbody j d (by omega) hjc hod
    exact ⟨hres.1, hres.2.1⟩

/-- Witness for C1 at the concrete input `[1, 2, 3]`: the root array
open token at index 0 records close index 4, which holds an array-close
token. -/
theorem C1_nesting_witness :
    (0 : Nat) < 4 ∧ 4 < tokArr.length ∧ ∃ n, (tokAt tokArr 4).data = .arrayClose n := by
  have h := C1_nesting srcArr tokArr (by decide) 0 4 (Or.inl (by decide))
  exact ⟨h.1, h.2.1, h.2.2.1 (by decide)⟩

/-- C2: in a successfully tokenized document, for an array-open token at
index `i` whose close token records child count `n`, applying
`next_sibling_index` exactly `n` times starting from the first child
`i + 1` lands exactly on the close index `c`, and every intermediate
stop is strictly before `c` — never short, never past. -/
theorem C2_sibling_skip : ∀ (src : List Char) (ts : List JsonToken), process src = .ok ts →
    ∀ i c n, (tokAt ts i).data = .value (.arrayOpen c) → (tokAt ts c).data = .arrayClose n →
      iterate_sibling ts n (i + 1) = c ∧ ∀ k, k < n → iterate_sibling ts k (i + 1) < c := by
  intro src ts h i c n ho hc
  obtain ⟨h1, h2, h3, h4⟩ := tokens_open_spec h (Or.inl ho)
  obtain ⟨m, hcm, hbody⟩ := h3 ho
  have hmn : m = n := by
    rw [hcm] at hc
    injection hc
  subst hmn
  exact forest_iterate hbody

/-- Witness for C2 at the concrete input `[1, 2, 3]`: three sibling
steps from the first child (index 1) land exactly on the close index 4. -/
theorem C2_sibling_skip_witness : iterate_sibling tokArr 3 1 = 4 :=
  (C2_sibling_skip srcArr tokArr (by decide) 0 4 3 (by decide) (by decide)).1

/-! ### Key lookup: general first-match characterization -/

theorem forest_zero {ts : List JsonToken} {s e : Nat} (h : Forest ts 0 s e) : s = e := by
  cases h
  rfl

theorem forest_pos {ts : List JsonToken} {n s e : Nat} (h : Forest ts (n + 1) s e) : s < e := by
  cases h with
  | scalar s e n hs rest => have := forest_le rest; omega
  | array s c m e n ho hc body rest =>
    have h1 := forest_le body
    have h2 := forest_le rest
    omega
  | object s c m e n ho hc body rest =>
    have h1 := forest_le body
    have h2 := forest_le rest
    omega

/-- Over a single value tree, one sibling step jumps from its root to
its right edge. -/
theorem forest_one_next {ts : List JsonToken} {s e : Nat} (h : Forest ts 1 s e) :
    next_sibling_index ts s = e := by
  cases h with
  | scalar s e n hs rest =>
    have he := forest_zero rest
    rw [next_sibling_scalar hs]
    exact he
  | array s c m e n ho hc body rest =>
    have he := forest_zero rest
    rw [next_sibling_array ho]
    exact he
  | object s c m e n ho hc body rest =>
    have he := forest_zero rest
    rw [next_sibling_object ho]
    exact he

/-- Peeling the first tree off a nonempty forest. -/
theorem forest_cons_inv {ts : List JsonToken} {n s e : Nat} (h : Forest ts (n + 1) s e) :
    ∃ mid, Forest ts 1 s mid ∧ Forest ts n mid e := by
  cases h with
  | scalar s e n hs rest =>
    exact ⟨s + 1, Forest.scalar s (s + 1) 0 hs (Forest.nil _), rest⟩
  | array s c m e n ho hc body rest =>
    exact ⟨c + 1, Forest.array s c m (c + 1) 0 ho hc body (Forest.nil _), rest⟩
  | object s c m e n ho hc body rest =>
    exact ⟨c + 1, Forest.object s c m (c + 1) 0 ho hc body (Forest.nil _), rest⟩

theorem iterate_sibling_add (ts : List JsonToken) : ∀ a b s : Nat,
    iterate_sibling ts (a + b) s = iterate_sibling ts b (iterate_sibling ts a s) := by
  intro a
  induction a with
  | zero =>
    intro b s
    rw [Nat.zero_add]
    rfl
  | succ a ih =>
    intro b s
    have harith : a + 1 + b = (a + b) + 1 := by omega
    rw [harith]
    show iterate_sibling ts (a + b) (next_sibling_index ts s) = _
    rw [ih]
    rfl

/-- Each tree of a forest occupies at least one slot. -/
theorem forest_count_le {ts : List JsonToken} {n s e : Nat} (h : Forest ts n s e) :
    n ≤ e - s := by
  induction h with
  | nil => omega
  | scalar s e n hs rest ih =>
    have := forest_le rest
    omega
  | array s c m e n ho hc body rest ihb ihr =>
    have h1 := forest_le body
    have h2 := forest_le rest
    omega
  | object s c m e n ho hc body rest ihb ihr =>
    have h1 := forest_le body
    have h2 := forest_le rest
    omega

/-- If none of the `m` pairs of the remaining object body matches, the
key scan runs to the close token and reports `not found`. -/
theorem key_scan_not_found {src : List Char} {ts : List JsonToken} {c : Nat}
    {target : List Char} : ∀ (m s fuel : Nat), Forest ts (2 * m) s c → m < fuel →
    (∀ j, j < m → dequote (get_slice src ts (iterate_sibling ts (2 * j) s)) ≠ target) →
    key_scan src ts c target fuel s = .error ⟨⟩ := by
  intro m
  induction m with
  | zero =>
    intro s fuel hf hfuel hnone
    have hse : s = c := forest_zero (by simpa using hf)
    cases fuel with
    | zero => omega
    | succ f =>
      unfold key_scan
      rw [if_neg (by omega)]
  | succ m' ih =>
    intro s fuel hf hfuel hnone
    have h2 : 2 * (m' + 1) = 2 * m' + 1 + 1 := by omega
    rw [h2] at hf
    obtain ⟨mid₁, hkey, hrest₁⟩ := forest_cons_inv hf
    obtain ⟨mid₂, hval, hrest₂⟩ := forest_cons_inv hrest₁
    have hn₁ := forest_one_next hkey
    have hn₂ := forest_one_next hval
    have hp₁ := forest_pos hkey
    have hp₂ := forest_pos hval
    have hle := forest_le hrest₂
    have hstep : iterate_sibling ts 2 s = mid₂ := by
      show next_sibling_index ts (next_sibling_index ts s) = mid₂
      rw [hn₁, hn₂]
    cases fuel with
    | zero => omega
    | succ f =>
      unfold key_scan
      rw [if_pos (by omega)]
      dsimp only
      have hkey0 : ¬ dequote (get_slice src ts s) = target := by
        have hx := hnone 0 (by omega)
        simpa [iterate_sibling] using hx
      rw [if_neg hkey0, hn₁, hn₂]
      refine ih mid₂ f hrest₂ (by omega) ?_
      intro j hj
      have hx := hnone (j + 1) (by omega)
      have ha : 2 * (j + 1) = 2 + 2 * j := by omega
      rw [ha, iterate_sibling_add ts 2 (2 * j) s, hstep] at hx
      exact hx

/-- If pair `jm` is the first whose de-quoted key slice equals the
target, the key scan returns the view index of that pair's value. -/
theorem key_scan_found {src : List Char} {ts : List JsonToken} {c : Nat}
    {target : List Char} : ∀ (m s fuel jm : Nat), Forest ts (2 * m) s c → m < fuel →
    jm < m →
    (∀ j, j < jm → dequote (get_slice src ts (iterate_sibling ts (2 * j) s)) ≠ target) →
    dequote (get_slice src ts (iterate_sibling ts (2 * jm) s)) = target →
    key_scan src ts c target fuel s =
      .ok (next_sibling_index ts (iterate_sibling ts (2 * jm) s)) := by
  intro m
  induction m with
  | zero => intro s fuel jm _ _ hjm; omega
  | succ m' ih =>
    intro s fuel jm hf hfuel hjm hnone hmatch
    have h2 : 2 * (m' + 1) = 2 * m' + 1 + 1 := by omega
    rw [h2] at hf
    obtain ⟨mid₁, hkey, hrest₁⟩ := forest_cons_inv hf
    obtain ⟨mid₂, hval, hrest₂⟩ := forest_cons_inv hrest₁
    have hn₁ := forest_one_next hkey
    have hn₂ := forest_one_next hval
    have hp₁ := forest_pos hkey
    have hp₂ := forest_pos hval
    have hle := forest_le hrest₂
    have hstep : iterate_sibling ts 2 s = mid₂ := by
      show next_sibling_index ts (next_sibling_index ts s) = mid₂
      rw [hn₁, hn₂]
    cases fuel with
    | zero => omega
    | succ f =>
      unfold key_scan
      rw [if_pos (by omega)]
      dsimp only
      cases jm with
      | zero =>
        rw [if_pos (by simpa [iterate_sibling] using hmatch)]
        simp [iterate_sibling]
      | succ jm' =>
        have hkey0 : ¬ dequote (get_slice src ts s) = target := by
          have hx := hnone 0 (by omega)
          simpa [iterate_sibling] using hx
        rw [if_neg hkey0, hn₁, hn₂]
        have hco : iterate_sibling ts (2 * (jm' + 1)) s = iterate_sibling ts (2 * jm') mid₂ := by
          have ha : 2 * (jm' + 1) = 2 + 2 * jm' := by omega
          rw [ha, iterate_sibling_add ts 2 (2 * jm') s, hstep]
        rw [hco]
        refine ih mid₂ f jm' hrest₂ (by omega) (by omega) ?_ ?_
        · intro j hj
          have hx := hnone (j + 1) (by omega)
          have ha : 2 * (j + 1) = 2 + 2 * j := by omega
          rw [ha, iterate_sibling_add ts 2 (2 * j) s, hstep] at hx
          exact hx
        · rw [← hco]
          exact hmatch

/-- C7: on a view positioned at an object-open token of a successful
tokenization, key lookup scans the direct children two at a time (key,
value), comparing each key's de-quoted rendered slice with the target:
it returns the view at the first matching key's value, and fails with
the navigation not-found error (`JsonNodeError`, not a tokenizer
`ParseError`) when no pair matches.  The concrete conjuncts instantiate
this at the spec's example `{"key": true}`: `key("missing")` fails with
the navigation error while `key("key")` returns the `true` value view. -/
theorem C7_key_lookup :
    (∀ (src : List Char) (ts : List JsonToken) (i c m : Nat) (target : List Char),
      process src = .ok ts →
      (tokAt ts i).data = .value (.objectOpen c) →
      (tokAt ts c).data = .objectClose m →
      ((∀ j, j < m →
          dequote (get_slice src ts (iterate_sibling ts (2 * j) (i + 1))) ≠ target) →
        node_key src ts i target = .error ⟨⟩) ∧
      (∀ jm, jm < m →
        (∀ j, j < jm →
          dequote (get_slice src ts (iterate_sibling ts (2 * j) (i + 1))) ≠ target) →
        dequote (get_slice src ts (iterate_sibling ts (2 * jm) (i + 1))) = target →
        node_key src ts i target =
          .ok (next_sibling_index ts (iterate_sibling ts (2 * jm) (i + 1))))) ∧
    process srcObj = .ok tokObj ∧
    node_key srcObj tokObj 0 ("missing".toList) = .error ⟨⟩ ∧
    node_key srcObj tokObj 0 ("key".toList) = .ok 2 ∧
    (tokAt tokObj 2).data = .value .true ∧ get_bool tokObj 2 = some Bool.true := by
  refine ⟨?_, by decide, by decide, by decide, by decide, by decide⟩
  intro src ts i c m target h ho hcl
  obtain ⟨h1, h2, h3, h4⟩ := tokens_open_spec h (Or.inr ho)
  obtain ⟨m', hcm, hbody⟩ := h4 ho
  have hmm : m' = m := by
    rw [hcm] at hcl
    injection hcl
  subst hmm
  have hcount := forest_count_le hbody
  have hfuel : m' < ts.length + 1 := by omega
  have hnode : ∀ r, key_scan src ts c target (ts.length + 1) (i + 1) = r →
      node_key src ts i target = r := by
    intro r hr
    unfold node_key
    rw [ho]
    exact hr
  constructor
  · intro hnone
    exact hnode _ (key_scan_not_found m' (i + 1) (ts.length + 1) hbody hfuel hnone)
  · intro jm hjm hnone hmatch
    exact hnode _ (key_scan_found m' (i + 1) (ts.length + 1) jm hbody hfuel hjm hnone hmatch)

/-- Witness for C7's general part at `{"key": true}`: the object at
index 0 closes at index 3 with one pair, no key among its single pair
de-quotes to `missing`, and lookup indeed fails with the navigation
error. -/
theorem C7_key_lookup_witness : node_key srcObj tokObj 0 ("missing".toList) = .error ⟨⟩ :=
  (C7_key_lookup.1 srcObj tokObj 0 3 1 ("missing".toList) (by decide) (by decide)
    (by decide)).1 (by decide)

end Jsonprops
